import Mathlib

/-!
# Verification of the MySQL Slow Log Analyzer (`src/slowLogAnalyzer.js`)

Shallow embedding of the analyzer's core logic:

* `cleanUpQuery` — the query normalizer (`cleanUpQuery` in the source):
  two global regex replacements (`/[-+]?[0-9]*\.?[0-9]+/g → "?"` and
  `/'[^']*'/g → "?"`) followed by a trailing-double-quote trim that drops
  the final two characters.
* the per-line state machine of `slowLogAnalyzer` (boundary commit,
  `Query_time` / `SET timestamp=` / `Thread_id` / `User@Host` extraction,
  noise skipping, query-text accumulation);
* the report arrangement of `writeTimingsCSV` / `writeConnectionsCSV`
  (stable sort by total time descending, timestamp bucketing, sort by
  timestamp ascending).

Strings are modelled as `List Char`.  JavaScript numbers are modelled as
`Option ℚ`: `some q` is an ordinary number (real arithmetic stands in for
IEEE doubles), `none` stands for an absent field (`undefined`) or `NaN`;
JavaScript arithmetic on `undefined`/`NaN` yields `NaN`, which `jsAdd`
mirrors by propagating `none`.  Unix timestamps and connection ids are
`Option Int` (absent vs. parsed integer).
-/

namespace SlowLog

/-! ## Character classes used by the regexes -/

/-- `[0-9]` in the source regexes. -/
def isDigitC (c : Char) : Bool := '0' ≤ c && c ≤ '9'

/-- `[-+]` — the optional sign of the number regex `/[-+]?[0-9]*\.?[0-9]+/`. -/
def isSignC (c : Char) : Bool := c = '+' || c = '-'

/-- Length of the maximal digit run at the head of `l` (what a greedy
`[0-9]*` / `[0-9]+` consumes). -/
def digitSpan (l : List Char) : Nat := (l.takeWhile isDigitC).length

/-! ## The number substitution `/[-+]?[0-9]*\.?[0-9]+/g → "?"`

JavaScript's backtracking engine, on the body `[0-9]*\.?[0-9]+` at a given
position, matches: the maximal run `digits '.' digits` when a digit run is
followed by `'.'` and at least one digit; otherwise the maximal leading
digit run if non-empty (greedy `[0-9]*` backtracks one digit so `[0-9]+`
can succeed, and an unfollowed `'.'` is given up); otherwise no match.
`tryMatchNum` returns the length of the match starting exactly at the head
of its input, if any. -/

/-- Match length of the unsigned body `[0-9]*\.?[0-9]+` at the head. -/
def numBody (t : List Char) : Option Nat :=
  let n := digitSpan t
  match t.drop n with
  | [] => if 0 < n then some n else none
  | c :: u =>
    if c = '.' then
      let m := digitSpan u
      if 0 < m then some (n + 1 + m)
      else if 0 < n then some n else none
    else if 0 < n then some n else none

/-- Match length of `[-+]?[0-9]*\.?[0-9]+` at the head of `s` (a leading
sign is consumed when present; if the body fails after a sign, the
sign-less attempt fails as well, since a sign is neither digit nor dot). -/
def tryMatchNum (s : List Char) : Option Nat :=
  match s with
  | [] => none
  | c :: cs => if isSignC c then (numBody cs).map (· + 1) else numBody s

/-- `String.prototype.replace` with `/[-+]?[0-9]*\.?[0-9]+/g` and
replacement `"?"`: scan left to right; at each position either emit `?`
and skip the match, or emit the character and advance by one.  A match is
never empty, so when `tryMatchNum (c :: cs) = some k` we continue at
`cs.drop (k - 1)`.  Structural recursion on a fuel counter (`≥` the input
length, see `numSub`) keeps the definition kernel-computable. -/
def numSubF : Nat → List Char → List Char
  | 0, l => l
  | _ + 1, [] => []
  | fuel + 1, c :: cs =>
    match tryMatchNum (c :: cs) with
    | some k => '?' :: numSubF fuel (cs.drop (k - 1))
    | none => c :: numSubF fuel cs

/-- The number substitution itself. -/
def numSub (l : List Char) : List Char := numSubF l.length l

/-! ## The string substitution `/'[^']*'/g → "?"`

At a `'` the engine matches through the next `'` (the greedy `[^']*`
cannot cross a quote); with no later quote there is no match at this
position. -/

def strSubF : Nat → List Char → List Char
  | 0, l => l
  | _ + 1, [] => []
  | fuel + 1, c :: cs =>
    if c = '\'' then
      match cs.findIdx? (· = '\'') with
      | some j => '?' :: strSubF fuel (cs.drop (j + 1))
      | none => c :: strSubF fuel cs
    else c :: strSubF fuel cs

/-- The string substitution itself. -/
def strSub (l : List Char) : List Char := strSubF l.length l

/-- The trailing-quote trim: `if (cleanQuery.endsWith("\"")) cleanQuery =
cleanQuery.substring(0, cleanQuery.length - 2)`.  JavaScript's `substring`
clamps a negative end to `0`, exactly as `Nat` subtraction does. -/
def removeTrailingQuote (l : List Char) : List Char :=
  if l.getLast? = some '"' then l.take (l.length - 2) else l

/-- `cleanUpQuery` from the source, on `List Char`. -/
def cleanUpQueryL (q : List Char) : List Char :=
  removeTrailingQuote (strSub (numSub q))

/-- `cleanUpQuery` on `String`. -/
def cleanUpQuery (q : String) : String :=
  ⟨cleanUpQueryL q.toList⟩

/-! ## JavaScript numbers

`some q` is an ordinary number, `none` is `undefined`/`NaN`.  Addition
involving `undefined` or `NaN` yields `NaN`. -/

/-- JavaScript `+` on possibly-absent numbers. -/
def jsAdd : Option ℚ → Option ℚ → Option ℚ
  | some a, some b => some (a + b)
  | _, _ => none

/-! ## The analyzer state

`currentTiming` in the source is the object `{count: 1, query: ""}`,
acquiring `queryTime`, `lockTime`, `unixTimestamp`, `connectionId` as the
corresponding marker lines are seen.  The same object shape is stored in
`queryToTimingsMap` (with `totalTime` and the cleaned `query` set at
insertion). -/

structure QueryTiming where
  count : Nat
  query : List Char
  queryTime : Option ℚ := none
  lockTime : Option ℚ := none
  totalTime : Option ℚ := none
  unixTimestamp : Option Int := none
  connectionId : Option Int := none
deriving Repr, DecidableEq

/-- `{count: 1, query: ""}` — the fresh in-progress entry. -/
def initTiming : QueryTiming :=
  { count := 1, query := [] }

/-- `queryToTimingsMap` is a JavaScript `Map`, i.e. an insertion-ordered
association list with unique keys; `currentTiming` is the in-progress
entry. -/
structure AState where
  map : List (List Char × QueryTiming)
  current : QueryTiming
deriving Repr, DecidableEq

def initState : AState := { map := [], current := initTiming }

/-! ## Field-extraction regexes

Each `line.match(...)` is an unanchored leftmost search; a failed match
makes the subsequent `match[1]` throw, which we model as `none` from
`processLine` (a fatal error).  The four patterns below contain no
ambiguity requiring backtracking except `User@Host`'s greedy `.*`, which
selects the rightmost ` Id: *[0-9]+` occurrence. -/

/-- Strip a literal from the head of `l`. -/
def dropLit (pat l : List Char) : Option (List Char) :=
  if pat.isPrefixOf l then some (l.drop pat.length) else none

/-- Greedy nonempty character-class run: returns (run, rest). -/
def span1 (p : Char → Bool) (l : List Char) : Option (List Char × List Char) :=
  let run := l.takeWhile p
  if run.isEmpty then none else some (run, l.drop run.length)

/-- Digits of a captured group to a natural number (`parseInt` on a
`[0-9]+` capture). -/
def parseIntDigits (ds : List Char) : Int :=
  ds.foldl (fun acc c => acc * 10 + (c.toNat - '0'.toNat)) 0

/-- `parseFloat` on a `[0-9.]+` capture: the longest prefix of the form
`digits* ('.' digits*)?` is the number, provided it contains at least one
digit; otherwise `NaN`. -/
def jsParseFloat (ds : List Char) : Option ℚ :=
  let d1 := ds.takeWhile isDigitC
  let rest := ds.drop d1.length
  let d2 := match rest with
    | '.' :: u => u.takeWhile isDigitC
    | _ => []
  if d1.isEmpty && d2.isEmpty then none
  else some ((parseIntDigits d1 : ℚ) +
    (parseIntDigits d2 : ℚ) / ((10 : ℚ) ^ d2.length))

/-- One attempt of `/# Query_time: ([0-9.]+) +Lock_time: ([0-9.]+)
+Rows_sent: ([0-9.]+) +Rows_examined: ([0-9.]+)/` at the head of `l`,
returning captures 1 and 2.  All runs are greedy-maximal; the character
classes `[0-9.]`, `' '` and the following literal heads are disjoint, so
no backtracking arises. -/
def matchQTAt (l : List Char) : Option (List Char × List Char) := do
  let l ← dropLit "# Query_time: ".toList l
  let (g1, l) ← span1 (fun c => isDigitC c || c = '.') l
  let (_, l) ← span1 (· = ' ') l
  let l ← dropLit "Lock_time: ".toList l
  let (g2, l) ← span1 (fun c => isDigitC c || c = '.') l
  let (_, l) ← span1 (· = ' ') l
  let l ← dropLit "Rows_sent: ".toList l
  let (_, l) ← span1 (fun c => isDigitC c || c = '.') l
  let (_, l) ← span1 (· = ' ') l
  let l ← dropLit "Rows_examined: ".toList l
  let (_, _) ← span1 (fun c => isDigitC c || c = '.') l
  pure (g1, g2)

/-- Unanchored leftmost search with a per-position matcher. -/
def searchFirst (f : List Char → Option α) : List Char → Option α
  | [] => f []
  | c :: cs => (f (c :: cs)).orElse fun _ => searchFirst f cs

/-- Unanchored rightmost search (what a greedy `.*` before the pattern
produces). -/
def searchLast (f : List Char → Option α) : List Char → Option α
  | [] => f []
  | c :: cs => (searchLast f cs).orElse fun _ => f (c :: cs)

/-- `line.match(/# Query_time: ... /)`, captures 1 and 2. -/
def searchQT (line : List Char) : Option (List Char × List Char) :=
  searchFirst matchQTAt line

/-- `line.match(/SET timestamp=([0-9]+)/)`, capture 1 parsed. -/
def searchTS (line : List Char) : Option Int :=
  searchFirst
    (fun l => do
      let l ← dropLit "SET timestamp=".toList l
      let (g, _) ← span1 isDigitC l
      pure (parseIntDigits g))
    line

/-- `line.match(/# Thread_id: *([0-9]+)/)`, capture 1 parsed (` *` is
greedy-maximal; a shorter run of spaces cannot help `[0-9]+`). -/
def searchThread (line : List Char) : Option Int :=
  searchFirst
    (fun l => do
      let l ← dropLit "# Thread_id:".toList l
      let l := l.drop (l.takeWhile (· = ' ')).length
      let (g, _) ← span1 isDigitC l
      pure (parseIntDigits g))
    line

/-- `line.match(/# User@Host: .* Id: *([0-9]+)/)`, capture 1 parsed: at the
leftmost `# User@Host: ` occurrence, the greedy `.*` yields the rightmost
` Id: *[0-9]+` in the remainder of the line. -/
def searchUser (line : List Char) : Option Int :=
  searchFirst
    (fun l => do
      let rest ← dropLit "# User@Host: ".toList l
      searchLast
        (fun r => do
          let r ← dropLit " Id:".toList r
          let r := r.drop (r.takeWhile (· = ' ')).length
          let (g, _) ← span1 isDigitC r
          pure (parseIntDigits g))
        rest)
    line

/-! ## The per-line state machine -/

/-- `String.prototype.includes`: does `pat` occur as a contiguous
substring of `l`? -/
def containsSub (pat : List Char) : List Char → Bool
  | [] => pat.isPrefixOf ([] : List Char)
  | c :: cs => pat.isPrefixOf (c :: cs) || containsSub pat cs

/-- The `# Time:` entry-boundary test: `line.includes("# Time:")` in
cloudwatch mode, `line.startsWith("# Time:")` otherwise. -/
def isBoundary (cloudwatchFormat : Bool) (line : List Char) : Bool :=
  if cloudwatchFormat then containsSub "# Time:".toList line
  else "# Time:".toList.isPrefixOf line

/-- The noise-line test of the final `else if` chain: other comments and
known headers are discarded. -/
def isNoise (line : List Char) : Bool :=
  "#".toList.isPrefixOf line
  || "Tcp port:".toList.isPrefixOf line
  || "use ".toList.isPrefixOf line
  || "/* ".toList.isPrefixOf line
  || "/rdsdbbin".toList.isPrefixOf line
  || "@timestamp,@message".toList.isPrefixOf line
  || "Time         ".toList.isPrefixOf line

/-- The boundary branch: commit `currentTiming` to the map when its raw
accumulated `query` is non-empty (JavaScript `if (query)` truthiness),
then reset `currentTiming` to `{count: 1, query: ""}`. -/
def commit (st : AState) : AState :=
  let cur := st.current
  let m :=
    if cur.query = [] then st.map
    else
      let key := cleanUpQueryL cur.query
      match st.map.find? (fun p => p.1 == key) with
      | some (_, v) =>
          let v' : QueryTiming :=
            { v with
              totalTime := jsAdd v.totalTime (jsAdd cur.queryTime cur.lockTime)
              queryTime := jsAdd v.queryTime cur.queryTime
              lockTime := jsAdd v.lockTime cur.lockTime
              count := v.count + 1 }
          st.map.map (fun p => if p.1 == key then (p.1, v') else p)
      | none =>
          st.map ++
            [(key, { cur with
                     totalTime := jsAdd cur.queryTime cur.lockTime
                     query := key })]
  { map := m, current := initTiming }

/-- One invocation of the `line` handler.  `none` models an uncaught
exception (`match[1]` on a `null` match). -/
def processLine (cloudwatchFormat : Bool) (st : AState) (line : List Char) :
    Option AState :=
  if isBoundary cloudwatchFormat line then
    some (commit st)
  else if "# Query_time".toList.isPrefixOf line then
    match searchQT line with
    | none => none
    | some (g1, g2) =>
        some { st with current :=
          { st.current with
            queryTime := jsParseFloat g1
            lockTime := jsParseFloat g2 } }
  else if "SET timestamp=".toList.isPrefixOf line then
    match searchTS line with
    | none => none
    | some n => some { st with current.unixTimestamp := some n }
  else if "# Thread_id:".toList.isPrefixOf line then
    match searchThread line with
    | none => none
    | some n => some { st with current.connectionId := some n }
  else if "# User@Host".toList.isPrefixOf line then
    match searchUser line with
    | none => none
    | some n => some { st with current.connectionId := some n }
  else if isNoise line then
    some st
  else
    some { st with current.query := st.current.query ++ line }

/-- Run the analyzer from a state over a list of lines. -/
def runFrom (cloudwatchFormat : Bool) (st : AState) (lines : List (List Char)) :
    Option AState :=
  lines.foldlM (processLine cloudwatchFormat) st

/-- Whole run from the initial state. -/
def runA (cloudwatchFormat : Bool) (lines : List (List Char)) : Option AState :=
  runFrom cloudwatchFormat initState lines

/-! ## Report arrangement

`writeTimingsCSV` sorts `Array.from(map.values())` with the comparator
`(v1, v2) => v2.totalTime - v1.totalTime`; `writeConnectionsCSV` groups the
values by `unixTimestamp` into a second insertion-ordered `Map` and sorts
the buckets with `(v1, v2) => v1.unixTimestamp - v2.unixTimestamp`.
`Array.prototype.sort` is a stable sort; with a consistent comparator the
result places `x` before `y` whenever the comparator does not order `x`
after `y`, which is `List.insertionSort` with the relation `x` *may
precede* `y` iff `¬(cmp x y > 0)`.  A comparator result of `NaN` (absent
fields) is not `> 0`, hence never forces a swap. -/

/-- JavaScript `-` on possibly-absent numbers. -/
def jsSub : Option ℚ → Option ℚ → Option ℚ
  | some a, some b => some (a - b)
  | _, _ => none

/-- JavaScript `-` on possibly-absent integer fields (`unixTimestamp`). -/
def jsSubI : Option Int → Option Int → Option Int
  | some a, some b => some (a - b)
  | _, _ => none

/-- Is a comparator result `> 0`?  (`NaN > 0` is `false`.) -/
def jsPos : Option ℚ → Bool
  | some q => decide (0 < q)
  | none => false

/-- Is a comparator result `> 0`?  (integer version). -/
def jsPosI : Option Int → Bool
  | some n => decide (0 < n)
  | none => false

/-- `v1` may precede `v2` under `(v1, v2) => v2.totalTime - v1.totalTime`
(total time descending). -/
def timingBefore (v1 v2 : QueryTiming) : Prop :=
  jsPos (jsSub v2.totalTime v1.totalTime) = false

instance : DecidableRel timingBefore := fun _ _ => by
  unfold timingBefore; infer_instance

/-- The `sortedByTime` array of `writeTimingsCSV`. -/
def sortTimings (vals : List QueryTiming) : List QueryTiming :=
  vals.insertionSort timingBefore

/-- One step of the grouping loop of `writeConnectionsCSV`: append the
value's query to its timestamp's bucket, or open a new bucket. -/
def bucketStep (acc : List (Option Int × List (List Char)))
    (v : QueryTiming) : List (Option Int × List (List Char)) :=
  if acc.any (fun p => p.1 == v.unixTimestamp) then
    acc.map (fun p =>
      if p.1 == v.unixTimestamp then (p.1, p.2 ++ [v.query]) else p)
  else acc ++ [(v.unixTimestamp, [v.query])]

/-- `timestampToQueriesMap`: the values are grouped by `unixTimestamp`
into an insertion-ordered map from timestamp to the list of their query
texts. -/
def buildBuckets (vals : List QueryTiming) :
    List (Option Int × List (List Char)) :=
  vals.foldl bucketStep []

/-- One row of the connections report before sorting. -/
structure ConnBucket where
  unixTimestamp : Option Int
  count : Nat
  queries : List (List Char)
deriving Repr, DecidableEq

/-- The `timings` array of `writeConnectionsCSV`. -/
def connTimings (vals : List QueryTiming) : List ConnBucket :=
  (buildBuckets vals).map (fun p => ⟨p.1, p.2.length, p.2⟩)

/-- `b1` may precede `b2` under `(v1, v2) => v1.unixTimestamp -
v2.unixTimestamp` (timestamp ascending). -/
def connBefore (b1 b2 : ConnBucket) : Prop :=
  jsPosI (jsSubI b1.unixTimestamp b2.unixTimestamp) = false

instance : DecidableRel connBefore := fun _ _ => by
  unfold connBefore; infer_instance

/-- The `sortedByTime` array of `writeConnectionsCSV`. -/
def sortConnections (vals : List QueryTiming) : List ConnBucket :=
  (connTimings vals).insertionSort connBefore

/-! ## Literal-structure templates

The spec's equivalence “two raw query texts differ only in the content of
numeric literals and single-quoted string literals” is formalized through
templates: a list of segments that are either shared verbatim fragments,
numeric-literal slots, or string-literal slots.  Two texts are
literal-equivalent (`LitEquiv`) when they are instantiations of one
template shape with (possibly different) well-formed literals. -/

/-- A character no literal rule consumes or merges with: not a digit,
not a sign, not `'.'`, not a single quote. -/
def inertChar (c : Char) : Bool :=
  !isDigitC c && !isSignC c && !(c = '.') && !(c = '\'')

/-- The spec's unsigned numeric-literal shapes:
`digits+ ('.' digits+)?` or `'.' digits+`. -/
def isNumBodyL (s : List Char) : Bool :=
  let n := digitSpan s
  match s.drop n with
  | [] => decide (0 < n)
  | c :: u => c = '.' && !u.isEmpty && u.all isDigitC

/-- The spec's numeric-literal pattern `[-+]? (digits+ ('.' digits+)? |
'.' digits+)`. -/
def isNumLitL (s : List Char) : Bool :=
  match s with
  | [] => false
  | c :: s' => if isSignC c then isNumBodyL s' else isNumBodyL s

/-- A template segment: a shared fragment, a numeric-literal slot, or a
single-quoted string-literal slot (content without the quotes). -/
inductive Seg
  | frag (s : List Char)
  | num (s : List Char)
  | str (s : List Char)
deriving Repr, DecidableEq

/-- The text a segment contributes. -/
def Seg.render : Seg → List Char
  | .frag s => s
  | .num s => s
  | .str s => '\'' :: s ++ ['\'']

/-- The text of a whole template. -/
def renderT (t : List Seg) : List Char := (t.map Seg.render).flatten

/-- Literal well-formedness: numeric slots hold the spec's numeric
literals, string slots hold quote-free content. -/
def Seg.litWfB : Seg → Bool
  | .frag _ => true
  | .num s => isNumLitL s
  | .str s => !s.contains '\''

/-- Fragment inertness (used only by the amended claim): shared
fragments consist of characters the substitutions cannot touch. -/
def Seg.fragWfB : Seg → Bool
  | .frag s => s.all inertChar
  | _ => true

/-- Same shape: identical fragments, slots aligned by kind. -/
def SegMatchB : Seg → Seg → Bool
  | .frag s, .frag t => s == t
  | .num _, .num _ => true
  | .str _, .str _ => true
  | _, _ => false

/-- Pointwise shape match of two templates. -/
def segsMatch : List Seg → List Seg → Bool
  | [], [] => true
  | s :: t, s' :: t' => SegMatchB s s' && segsMatch t t'
  | _, _ => false

/-- “Differ only in the content of numeric and single-quoted string
literals”: both texts instantiate one template shape with well-formed
literals. -/
def LitEquiv (x y : List Char) : Prop :=
  ∃ t₁ t₂ : List Seg, segsMatch t₁ t₂ = true ∧
    t₁.all Seg.litWfB = true ∧ t₂.all Seg.litWfB = true ∧
    renderT t₁ = x ∧ renderT t₂ = y

/-- First character of a template's rendered text. -/
def headCharT : List Seg → Option Char
  | [] => none
  | s :: rest =>
    match s.render with
    | [] => headCharT rest
    | c :: _ => some c

/-- Each numeric slot is followed by text that cannot extend the number
match: end of input, an inert character, or a string literal's opening
quote (used only by the amended claim). -/
def numSeparatedB : List Seg → Bool
  | [] => true
  | .num _ :: rest =>
    (match headCharT rest with
     | none => true
     | some c => inertChar c || c = '\'') && numSeparatedB rest
  | _ :: rest => numSeparatedB rest

/-- The intermediate text after the number pass on a template
instantiation: numeric slots already `?`, string literals still quoted
(their digit runs substituted). -/
def renderN (t : List Seg) : List Char :=
  (t.map fun s =>
    match s with
    | .frag f => f
    | .num _ => ['?']
    | .str s => '\'' :: numSub s ++ ['\'']).flatten

/-- The literal-erased shape of a template: fragments verbatim, every
slot a `?`. -/
def skeleton (t : List Seg) : List Char :=
  (t.map fun s =>
    match s with
    | .frag f => f
    | .num _ => ['?']
    | .str _ => ['?']).flatten

/-! ## Helper lemmas -/

/-- `numSubF` ignores the fuel once it dominates the input length. -/
lemma numSubF_fuel :
    ∀ (f₁ f₂ : Nat) (l : List Char), l.length ≤ f₁ → l.length ≤ f₂ →
      numSubF f₁ l = numSubF f₂ l := by
  intro f₁
  induction f₁ with
  | zero =>
      intro f₂ l h₁ _
      have : l = [] := List.eq_nil_of_length_eq_zero (Nat.le_zero.mp h₁)
      subst this
      cases f₂ <;> rfl
  | succ f ih =>
      intro f₂ l h₁ h₂
      cases l with
      | nil => cases f₂ <;> rfl
      | cons c cs =>
          cases f₂ with
          | zero => simp at h₂
          | succ g =>
              simp only [numSubF]
              cases htm : tryMatchNum (c :: cs) with
              | some k =>
                  simp only []
                  congr 1
                  refine ih g _ ?_ ?_ <;>
                    simp only [List.length_drop] <;>
                    simp only [List.length_cons] at h₁ h₂ <;> omega
              | none =>
                  simp only []
                  congr 1
                  refine ih g cs ?_ ?_ <;>
                    simp only [List.length_cons] at h₁ h₂ <;> omega

lemma numSub_nil : numSub [] = [] := rfl

lemma numSub_cons_match {c : Char} {cs : List Char} {k : Nat}
    (h : tryMatchNum (c :: cs) = some k) :
    numSub (c :: cs) = '?' :: numSub (cs.drop (k - 1)) := by
  unfold numSub
  simp only [List.length_cons, numSubF, h]
  congr 1
  refine numSubF_fuel _ _ _ ?_ le_rfl
  simp only [List.length_drop]
  omega

lemma numSub_cons_nomatch {c : Char} {cs : List Char}
    (h : tryMatchNum (c :: cs) = none) :
    numSub (c :: cs) = c :: numSub cs := by
  unfold numSub
  simp only [List.length_cons, numSubF, h]

/-- `strSubF` ignores the fuel once it dominates the input length. -/
lemma strSubF_fuel :
    ∀ (f₁ f₂ : Nat) (l : List Char), l.length ≤ f₁ → l.length ≤ f₂ →
      strSubF f₁ l = strSubF f₂ l := by
  intro f₁
  induction f₁ with
  | zero =>
      intro f₂ l h₁ _
      have : l = [] := List.eq_nil_of_length_eq_zero (Nat.le_zero.mp h₁)
      subst this
      cases f₂ <;> rfl
  | succ f ih =>
      intro f₂ l h₁ h₂
      cases l with
      | nil => cases f₂ <;> rfl
      | cons c cs =>
          cases f₂ with
          | zero => simp at h₂
          | succ g =>
              simp only [strSubF]
              by_cases hc : c = '\''
              · rw [if_pos hc, if_pos hc]
                cases hf : List.findIdx? (fun x => x = '\'') cs with
                | some j =>
                    simp only [hf]
                    refine congrArg _ (ih g _ ?_ ?_) <;>
                      simp only [List.length_drop] <;>
                      simp only [List.length_cons] at h₁ h₂ <;> omega
                | none =>
                    simp only [hf]
                    refine congrArg _ (ih g cs ?_ ?_) <;>
                      simp only [List.length_cons] at h₁ h₂ <;> omega
              · rw [if_neg hc, if_neg hc]
                refine congrArg _ (ih g cs ?_ ?_) <;>
                  simp only [List.length_cons] at h₁ h₂ <;> omega

lemma strSub_nil : strSub [] = [] := rfl

lemma strSub_cons_close {cs : List Char} {j : Nat}
    (h : cs.findIdx? (fun x => x = '\'') = some j) :
    strSub ('\'' :: cs) = '?' :: strSub (cs.drop (j + 1)) := by
  unfold strSub
  simp only [List.length_cons, strSubF]
  rw [if_pos trivial]
  simp only [h]
  refine congrArg _ (strSubF_fuel _ _ _ ?_ le_rfl)
  simp only [List.length_drop]
  omega

lemma strSub_cons_noclose {cs : List Char}
    (h : cs.findIdx? (fun x => x = '\'') = none) :
    strSub ('\'' :: cs) = '\'' :: strSub cs := by
  unfold strSub
  simp only [List.length_cons, strSubF]
  rw [if_pos trivial]
  simp only [h]

lemma strSub_cons_other {c : Char} {cs : List Char} (h : ¬c = '\'') :
    strSub (c :: cs) = c :: strSub cs := by
  unfold strSub
  simp only [List.length_cons, strSubF, if_neg h]

/-- `take (length - 2)` is dropping the last element twice. -/
lemma take_sub_two_eq_dropLast_dropLast (l : List Char) :
    l.take (l.length - 2) = l.dropLast.dropLast := by
  rw [List.dropLast_eq_take, List.dropLast_eq_take, List.take_take,
    List.length_take]
  congr 1
  omega

/-! ## C7 — the trailing-quote trim -/

/-- **C7.**  In normalization, after the number and string substitutions
(`cleanUpQueryL = removeTrailingQuote ∘ strSub ∘ numSub`), a result ending
in `"` has exactly its last two characters dropped, and any other result
is returned unchanged by the trim step. -/
theorem C7_trailing_trim (s : List Char) :
    (∀ q : List Char, cleanUpQueryL q = removeTrailingQuote (strSub (numSub q))) ∧
    (s.getLast? = some '"' → removeTrailingQuote s = s.dropLast.dropLast) ∧
    (s.getLast? ≠ some '"' → removeTrailingQuote s = s) := by
  refine ⟨fun _ => rfl, fun h => ?_, fun h => ?_⟩
  · rw [removeTrailingQuote, if_pos h, take_sub_two_eq_dropLast_dropLast]
  · rw [removeTrailingQuote, if_neg h]

/-- Witness for C7 at concrete inputs: `ab"` loses both `b` and `"`;
`ab` is untouched. -/
theorem C7_witness :
    removeTrailingQuote ['a', 'b', '"'] = ['a'] ∧
    removeTrailingQuote ['a', 'b'] = ['a', 'b'] := by
  constructor
  · have h := (C7_trailing_trim ['a', 'b', '"']).2.1 (by decide)
    simpa using h
  · exact (C7_trailing_trim ['a', 'b']).2.2 (by decide)

/-- On a boundary line, the handler is exactly the commit-and-reset. -/
lemma processLine_boundary {cw : Bool} {st : AState} {line : List Char}
    (hb : isBoundary cw line = true) :
    processLine cw st line = some (commit st) := by
  simp [processLine, hb]

/-- On a non-boundary line the aggregation map is untouched (only
`currentTiming` changes, or the handler crashes). -/
lemma processLine_not_boundary_map {cw : Bool} {st st' : AState}
    {line : List Char} (hb : isBoundary cw line = false)
    (h : processLine cw st line = some st') : st'.map = st.map := by
  unfold processLine at h
  rw [hb] at h
  simp only [Bool.false_eq_true, if_false] at h
  split at h
  · split at h
    · exact absurd h (by simp)
    · exact (Option.some.inj h).symm ▸ rfl
  · split at h
    · split at h
      · exact absurd h (by simp)
      · exact (Option.some.inj h).symm ▸ rfl
    · split at h
      · split at h
        · exact absurd h (by simp)
        · exact (Option.some.inj h).symm ▸ rfl
      · split at h
        · split at h
          · exact absurd h (by simp)
          · exact (Option.some.inj h).symm ▸ rfl
        · split at h
          · exact (Option.some.inj h).symm ▸ rfl
          · exact (Option.some.inj h).symm ▸ rfl

/-! ## C1 — behaviour of the boundary commit -/

lemma commit_current (st : AState) : (commit st).current = initTiming := rfl

lemma commit_map_of_empty (st : AState) (h : st.current.query = []) :
    (commit st).map = st.map := by
  simp only [commit, h, if_pos]

lemma commit_find?_of_nonempty (st : AState) (h : st.current.query ≠ []) :
    ∃ v, ((commit st).map.find?
        (fun p => p.1 == cleanUpQueryL st.current.query)) =
      some (cleanUpQueryL st.current.query, v) := by
  set key := cleanUpQueryL st.current.query with hkey
  simp only [commit, if_neg h, ← hkey]
  cases hfind : st.map.find? (fun p => p.1 == key) with
  | none =>
      refine ⟨{ st.current with
        totalTime := jsAdd st.current.queryTime st.current.lockTime
        query := key }, ?_⟩
      rw [List.find?_append, hfind]
      simp
  | some kv =>
      obtain ⟨k0, v0⟩ := kv
      have hk0 : (k0 == key) = true := by
        simpa using List.find?_some hfind
      have hpred :
          ((fun p : List Char × QueryTiming => p.1 == key) ∘
            (fun p : List Char × QueryTiming =>
              if p.1 == key then
                (p.1,
                  { v0 with
                    totalTime :=
                      jsAdd v0.totalTime
                        (jsAdd st.current.queryTime st.current.lockTime)
                    queryTime := jsAdd v0.queryTime st.current.queryTime
                    lockTime := jsAdd v0.lockTime st.current.lockTime
                    count := v0.count + 1 })
              else p)) =
          fun p : List Char × QueryTiming => p.1 == key := by
        funext p
        by_cases hp : p.1 = key
        · simp [hp]
        · simp [hp]
      refine ⟨{ v0 with
        totalTime :=
          jsAdd v0.totalTime (jsAdd st.current.queryTime st.current.lockTime)
        queryTime := jsAdd v0.queryTime st.current.queryTime
        lockTime := jsAdd v0.lockTime st.current.lockTime
        count := v0.count + 1 }, ?_⟩
      rw [List.find?_map, hpred, hfind]
      simp only [Option.map_some']
      rw [if_pos hk0, eq_of_beq hk0]

/-- **C1 (amended), counterexample part.**  The raw query text `x"` is
non-empty, so the boundary commits it, but its normalization is the empty
string: the resulting aggregation mapping holds exactly one stat whose
query key is the empty string — refuting “no stat whose query key is the
empty string ever exists in the mapping.” -/
theorem C1_counterexample :
    (runA false [['x', '"'], "# Time: x".toList]).map
        (fun st => st.map.map Prod.fst) =
      some [([] : List Char)] := by
  decide

/-- **C1 (amended).**  On a boundary-marker line the accumulated entry is
committed iff its *raw* accumulated `queryText` is non-empty (JavaScript
truthiness of `currentTiming.query`, tested *before* normalization): a
query-less boundary causes no mapping mutation, a non-empty raw query is
always committed under its normalized key (which may be the empty
string), and the in-progress entry is reset. -/
theorem C1_boundary_commit (cw : Bool) (st : AState) (line : List Char)
    (hb : isBoundary cw line = true) :
    processLine cw st line = some (commit st) ∧
    (commit st).current = initTiming ∧
    (st.current.query = [] → (commit st).map = st.map) ∧
    (st.current.query ≠ [] →
      ∃ v, ((commit st).map.find?
          (fun p => p.1 == cleanUpQueryL st.current.query)) =
        some (cleanUpQueryL st.current.query, v)) := by
  refine ⟨?_, commit_current st, commit_map_of_empty st,
    commit_find?_of_nonempty st⟩
  simp [processLine, hb]

/-- Witness for C1 (amended) at a concrete boundary line and states with
an empty and a non-empty accumulated query. -/
theorem C1_witness :
    processLine false ⟨[], { count := 1, query := ['a'] }⟩ "# Time:".toList =
      some (commit ⟨[], { count := 1, query := ['a'] }⟩) ∧
    (commit (⟨[], initTiming⟩ : AState)).map = [] ∧
    ∃ v, ((commit (⟨[], { count := 1, query := ['a'] }⟩ : AState)).map.find?
        (fun p => p.1 == cleanUpQueryL ['a'])) =
      some (cleanUpQueryL ['a'], v) := by
  refine ⟨(C1_boundary_commit false ⟨[], { count := 1, query := ['a'] }⟩
      "# Time:".toList (by decide)).1, ?_, ?_⟩
  · exact (C1_boundary_commit false ⟨[], initTiming⟩ "# Time:".toList
      (by decide)).2.2.1 rfl
  · exact (C1_boundary_commit false ⟨[], { count := 1, query := ['a'] }⟩
      "# Time:".toList (by decide)).2.2.2 (by decide)

/-! ## C2 — merge arithmetic at a boundary commit -/

/-- **C2.**  A finalized entry (raw query `q`, `queryTime = qt`,
`lockTime = lt`) is keyed by `cleanUpQueryL q`.  If the key is absent a
new stat is appended with `count = 1`, the entry's `queryTime`/`lockTime`,
and `totalTime = qt + lt`; if the key is present the stored stat gets
`count + 1`, `queryTime + qt`, `lockTime + lt`, and
`totalTime + (qt + lt)`, all other stats and the map order unchanged. -/
theorem C2_merge (st : AState) (qt lt : ℚ)
    (hqne : st.current.query ≠ [])
    (hqt : st.current.queryTime = some qt)
    (hlt : st.current.lockTime = some lt)
    (hcount : st.current.count = 1) :
    (st.map.find? (fun p => p.1 == cleanUpQueryL st.current.query) = none →
      (commit st).map = st.map ++
        [(cleanUpQueryL st.current.query,
          { count := 1
            query := cleanUpQueryL st.current.query
            queryTime := some qt
            lockTime := some lt
            totalTime := some (qt + lt)
            unixTimestamp := st.current.unixTimestamp
            connectionId := st.current.connectionId })]) ∧
    (∀ k0 v0 oqt olt ott,
      st.map.find? (fun p => p.1 == cleanUpQueryL st.current.query) =
        some (k0, v0) →
      v0.queryTime = some oqt → v0.lockTime = some olt →
      v0.totalTime = some ott →
      (commit st).map = st.map.map
        (fun p =>
          if p.1 == cleanUpQueryL st.current.query then
            (p.1,
              { v0 with
                count := v0.count + 1
                queryTime := some (oqt + qt)
                lockTime := some (olt + lt)
                totalTime := some (ott + (qt + lt)) })
          else p)) := by
  obtain ⟨m, cur⟩ := st
  obtain ⟨cnt, q, a, b, tt, ts, cid⟩ := cur
  dsimp only at hqne hqt hlt hcount ⊢
  subst hqt
  subst hlt
  subst hcount
  constructor
  · intro hfind
    simp only [commit, if_neg hqne, hfind, jsAdd]
  · intro k0 v0 oqt olt ott hfind hoqt holt hott
    simp only [commit, if_neg hqne, hfind]
    refine List.map_congr_left fun p _ => ?_
    by_cases hp : p.1 = cleanUpQueryL q
    · simp [hp, hoqt, holt, hott, jsAdd]
    · simp [hp]

/-- Witness for C2: committing the entry `{queryTime: 2.0, lockTime: 0.5,
query: "SELECT 2;"}` into a map already holding the stat of
`{queryTime: 1.0, lockTime: 0.5, query: "SELECT 1;"}` (same normalized
key `SELECT ?;`) yields `count = 2`, `queryTime = 3`, `lockTime = 1`,
`totalTime = 4`; inserting under a fresh key yields a `count = 1` stat. -/
theorem C2_witness :
    (commit
        ⟨[("SELECT ?;".toList,
            { count := 1, query := "SELECT ?;".toList,
              queryTime := some 1, lockTime := some (1/2),
              totalTime := some (3/2) })],
          { count := 1, query := "SELECT 2;".toList,
            queryTime := some 2, lockTime := some (1/2) }⟩).map =
      [("SELECT ?;".toList,
        { count := 2, query := "SELECT ?;".toList,
          queryTime := some 3, lockTime := some 1,
          totalTime := some 4 })] ∧
    (commit
        ⟨[], { count := 1, query := "SELECT 2;".toList,
               queryTime := some 2, lockTime := some (1/2) }⟩).map =
      [("SELECT ?;".toList,
        { count := 1, query := "SELECT ?;".toList,
          queryTime := some 2, lockTime := some (1/2),
          totalTime := some (5/2) })] := by
  have hkey : cleanUpQueryL "SELECT 2;".toList = "SELECT ?;".toList := by
    decide
  constructor
  · have h := (C2_merge
      ⟨[("SELECT ?;".toList,
          { count := 1, query := "SELECT ?;".toList,
            queryTime := some 1, lockTime := some (1/2),
            totalTime := some (3/2) })],
        { count := 1, query := "SELECT 2;".toList,
          queryTime := some 2, lockTime := some (1/2) }⟩
      2 (1/2) (by decide) rfl rfl rfl).2
      "SELECT ?;".toList
      { count := 1, query := "SELECT ?;".toList,
        queryTime := some 1, lockTime := some (1/2),
        totalTime := some (3/2) }
      1 (1/2) (3/2) rfl rfl rfl rfl
    rw [h]
    simp only [hkey, List.map_cons, List.map_nil, beq_self_eq_true, if_true,
      if_pos]
    norm_num
  · have h := (C2_merge
      ⟨[], { count := 1, query := "SELECT 2;".toList,
             queryTime := some 2, lockTime := some (1/2) }⟩
      2 (1/2) (by decide) rfl rfl rfl).1 rfl
    rw [h]
    simp only [hkey, List.nil_append]
    norm_num

/-! ## C3 — the `totalTime = queryTime + lockTime` invariant -/

/-- `jsAdd` of two `jsAdd`s regroups (the NaN cases all collapse to
`none`). -/
lemma jsAdd_jsAdd_swap (a b c d : Option ℚ) :
    jsAdd (jsAdd a b) (jsAdd c d) = jsAdd (jsAdd a c) (jsAdd b d) := by
  cases a <;> cases b <;> cases c <;> cases d <;>
    first
    | rfl
    | (simp only [jsAdd, Option.some.injEq]; ring)

/-- The per-stat invariant. -/
def StatInv (v : QueryTiming) : Prop :=
  v.totalTime = jsAdd v.queryTime v.lockTime

/-- `commit` preserves the invariant on every stored stat. -/
lemma commit_preserves_inv {st : AState}
    (h : ∀ p ∈ st.map, StatInv p.2) :
    ∀ p ∈ (commit st).map, StatInv p.2 := by
  intro p hp
  simp only [commit] at hp
  by_cases hq : st.current.query = []
  · rw [if_pos hq] at hp
    exact h p hp
  · rw [if_neg hq] at hp
    set key := cleanUpQueryL st.current.query with hkey
    cases hfind : st.map.find? (fun p => p.1 == key) with
    | none =>
        rw [hfind] at hp
        rcases List.mem_append.mp hp with hmem | hmem
        · exact h p hmem
        · rcases List.mem_singleton.mp hmem with rfl
          rfl
    | some kv =>
        obtain ⟨k0, v0⟩ := kv
        rw [hfind] at hp
        obtain ⟨p0, hp0, rfl⟩ := List.mem_map.mp hp
        by_cases hpk : p0.1 = key
        · have hv0 : StatInv v0 := by
            have := List.mem_of_find?_eq_some hfind
            exact h _ this
          simp only [hpk, beq_self_eq_true, if_true, if_pos]
          show jsAdd v0.totalTime (jsAdd _ _) = jsAdd (jsAdd v0.queryTime _) (jsAdd v0.lockTime _)
          rw [hv0]
          exact jsAdd_jsAdd_swap _ _ _ _
        · have hne : ¬((p0.1 == key) = true) := by simpa using hpk
          rw [if_neg hne]
          exact h p0 hp0

/-- `processLine` preserves the invariant on every stored stat. -/
lemma processLine_preserves_inv {cw : Bool} {st st' : AState}
    {line : List Char} (hstep : processLine cw st line = some st')
    (h : ∀ p ∈ st.map, StatInv p.2) :
    ∀ p ∈ st'.map, StatInv p.2 := by
  cases hb : isBoundary cw line with
  | true =>
      rw [processLine_boundary hb] at hstep
      cases hstep
      exact commit_preserves_inv h
  | false =>
      rw [processLine_not_boundary_map hb hstep]
      exact h

/-- **C3.**  After any successful run, every stat in the aggregation
mapping satisfies `totalTime = queryTime + lockTime` (with absent/NaN
fields propagated through `jsAdd`); since any prefix of a run is a run,
the invariant holds at every point after every merge. -/
theorem C3_invariant (cw : Bool) (lines : List (List Char)) (st' : AState)
    (h : runA cw lines = some st') :
    ∀ p ∈ st'.map, p.2.totalTime = jsAdd p.2.queryTime p.2.lockTime := by
  suffices H : ∀ (lines : List (List Char)) (st st' : AState),
      runFrom cw st lines = some st' →
      (∀ p ∈ st.map, StatInv p.2) → ∀ p ∈ st'.map, StatInv p.2 by
    exact H lines initState st' h (by intro p hp; cases hp)
  intro lines
  induction lines with
  | nil =>
      intro st st' hrun hinv
      cases hrun
      exact hinv
  | cons l ls ih =>
      intro st st' hrun hinv
      rw [runFrom, List.foldlM_cons] at hrun
      cases hstep : processLine cw st l with
      | none => rw [hstep] at hrun; cases hrun
      | some st₁ =>
          rw [hstep] at hrun
          exact ih st₁ st' hrun (processLine_preserves_inv hstep hinv)

/-- Witness for C3 on a concrete run with one committed entry. -/
theorem C3_witness :
    runA false [['q'], "# Time:".toList] =
      some ⟨[(['q'], { count := 1, query := ['q'] })], initTiming⟩ ∧
    ∀ p ∈ [(['q'], ({ count := 1, query := ['q'] } : QueryTiming))],
      p.2.totalTime = jsAdd p.2.queryTime p.2.lockTime := by
  refine ⟨by decide, ?_⟩
  exact C3_invariant false [['q'], "# Time:".toList]
    ⟨[(['q'], { count := 1, query := ['q'] })], initTiming⟩ (by decide)

/-! ## C5 — `unixTimestamp` is first-write-wins -/

/-- Looking up any key commutes with the merge-update map, since the
update preserves every pair's key. -/
lemma find?_map_update (m : List (List Char × QueryTiming))
    (key k : List Char) (v' : QueryTiming) :
    List.find? (fun p => p.1 == k)
        (m.map (fun p => if p.1 == key then (p.1, v') else p)) =
      (List.find? (fun p => p.1 == k) m).map
        (fun p => if p.1 == key then (p.1, v') else p) := by
  rw [List.find?_map]
  have hpred :
      ((fun p : List Char × QueryTiming => p.1 == k) ∘
        (fun p => if p.1 == key then (p.1, v') else p)) =
      fun p : List Char × QueryTiming => p.1 == k := by
    funext p
    by_cases hp : p.1 = key <;> simp [hp]
  rw [hpred]

/-- `commit` never changes the `unixTimestamp` of a stat already in the
map. -/
lemma commit_preserves_ts {st : AState} {k : List Char}
    {v₀ : List Char × QueryTiming}
    (h : st.map.find? (fun p => p.1 == k) = some v₀) :
    ∃ v₁, (commit st).map.find? (fun p => p.1 == k) = some v₁ ∧
      v₁.2.unixTimestamp = v₀.2.unixTimestamp := by
  simp only [commit]
  by_cases hq : st.current.query = []
  · rw [if_pos hq]
    exact ⟨v₀, h, rfl⟩
  · rw [if_neg hq]
    set key := cleanUpQueryL st.current.query with hkey
    cases hfind : st.map.find? (fun p => p.1 == key) with
    | none =>
        refine ⟨v₀, ?_, rfl⟩
        rw [List.find?_append, h]
        rfl
    | some kv =>
        obtain ⟨k0, w0⟩ := kv
        rw [find?_map_update, h]
        by_cases hvk : v₀.1 = key
        · have hkkey : k = key := by
            have := List.find?_some h
            have hv₀k : v₀.1 = k := by simpa using this
            rw [← hv₀k, hvk]
          have : (k0, w0) = v₀ := by
            have h2 : st.map.find? (fun p => p.1 == k) = some (k0, w0) := by
              rw [hkkey]; exact hfind
            rw [h] at h2
            exact (Option.some.inj h2).symm
          refine ⟨(v₀.1,
            { w0 with
              count := w0.count + 1
              queryTime := jsAdd w0.queryTime st.current.queryTime
              lockTime := jsAdd w0.lockTime st.current.lockTime
              totalTime :=
                jsAdd w0.totalTime
                  (jsAdd st.current.queryTime st.current.lockTime) }), ?_, ?_⟩
          · simp only [Option.map_some']
            rw [if_pos (by simpa using hvk)]
          · rw [← this]
        · refine ⟨v₀, ?_, rfl⟩
          simp only [Option.map_some']
          rw [if_neg (by simpa using hvk)]

/-- A stat created by `commit` under a previously-absent key carries the
committed entry's `unixTimestamp`. -/
lemma commit_creates_ts {st : AState} {k : List Char}
    {v₁ : List Char × QueryTiming}
    (hnone : st.map.find? (fun p => p.1 == k) = none)
    (hsome : (commit st).map.find? (fun p => p.1 == k) = some v₁) :
    v₁.2.unixTimestamp = st.current.unixTimestamp := by
  simp only [commit] at hsome
  by_cases hq : st.current.query = []
  · rw [if_pos hq, hnone] at hsome
    cases hsome
  · rw [if_neg hq] at hsome
    cases hfind : st.map.find?
        (fun p => p.1 == cleanUpQueryL st.current.query) with
    | some kv =>
        obtain ⟨k0, w0⟩ := kv
        rw [hfind, find?_map_update, hnone] at hsome
        cases hsome
    | none =>
        rw [hfind, List.find?_append, hnone, Option.none_or] at hsome
        by_cases hk : cleanUpQueryL st.current.query = k
        · simp only [List.find?_cons, hk, beq_self_eq_true] at hsome
          cases hsome
          rfl
        · have hbeq : (cleanUpQueryL st.current.query == k) = false := by
            simpa using hk
          simp only [List.find?_cons, hbeq, List.find?_nil] at hsome
          cases hsome

/-- `processLine` never changes the `unixTimestamp` of an existing
stat. -/
lemma processLine_preserves_ts {cw : Bool} {st st' : AState}
    {line : List Char} {k : List Char} {v₀ : List Char × QueryTiming}
    (hstep : processLine cw st line = some st')
    (h : st.map.find? (fun p => p.1 == k) = some v₀) :
    ∃ v₁, st'.map.find? (fun p => p.1 == k) = some v₁ ∧
      v₁.2.unixTimestamp = v₀.2.unixTimestamp := by
  cases hb : isBoundary cw line with
  | true =>
      rw [processLine_boundary hb] at hstep
      cases hstep
      exact commit_preserves_ts h
  | false =>
      rw [processLine_not_boundary_map hb hstep]
      exact ⟨v₀, h, rfl⟩

/-- **C5.**  First-write-wins for `unixTimestamp`: (i) over any
successful run, a stat already present keeps its `unixTimestamp`
unchanged no matter how many later entries merge into it; (ii) a
single step that creates a stat under a fresh key stamps it with the
creating entry's `unixTimestamp`. -/
theorem C5_first_write_wins (cw : Bool) :
    (∀ (st : AState) (lines : List (List Char)) (st' : AState)
        (k : List Char) (v₀ : List Char × QueryTiming),
      runFrom cw st lines = some st' →
      st.map.find? (fun p => p.1 == k) = some v₀ →
      ∃ v₁, st'.map.find? (fun p => p.1 == k) = some v₁ ∧
        v₁.2.unixTimestamp = v₀.2.unixTimestamp) ∧
    (∀ (st : AState) (line : List Char) (st' : AState)
        (k : List Char) (v₁ : List Char × QueryTiming),
      processLine cw st line = some st' →
      st.map.find? (fun p => p.1 == k) = none →
      st'.map.find? (fun p => p.1 == k) = some v₁ →
      v₁.2.unixTimestamp = st.current.unixTimestamp) := by
  constructor
  · intro st lines
    induction lines generalizing st with
    | nil =>
        intro st' k v₀ hrun h
        cases hrun
        exact ⟨v₀, h, rfl⟩
    | cons l ls ih =>
        intro st' k v₀ hrun h
        rw [runFrom, List.foldlM_cons] at hrun
        cases hstep : processLine cw st l with
        | none => rw [hstep] at hrun; cases hrun
        | some st₁ =>
            rw [hstep] at hrun
            obtain ⟨v₁, hfind₁, hts₁⟩ := processLine_preserves_ts hstep h
            obtain ⟨v₂, hfind₂, hts₂⟩ := ih st₁ st' k v₁ hrun hfind₁
            exact ⟨v₂, hfind₂, hts₂.trans hts₁⟩
  · intro st line st' k v₁ hstep hnone hsome
    cases hb : isBoundary cw line with
    | true =>
        rw [processLine_boundary hb] at hstep
        cases hstep
        exact commit_creates_ts hnone hsome
    | false =>
        rw [processLine_not_boundary_map hb hstep, hnone] at hsome
        cases hsome

/-- Witness for C5: merging a second entry (timestamp 555) into the stat
created at timestamp 111 leaves the stored timestamp at 111; a freshly
created stat carries its creating entry's timestamp. -/
theorem C5_witness :
    (∃ v₁,
      (commit
        ⟨[(['q'], { count := 1, query := ['q'], unixTimestamp := some 111 })],
          { count := 1, query := ['q'],
            unixTimestamp := some 555 }⟩).map.find?
          (fun p => p.1 == ['q']) = some v₁ ∧
      v₁.2.unixTimestamp = some 111) ∧
    ((['q'], ({ count := 1, query := ['q'], unixTimestamp := some 555 } :
        QueryTiming)) : List Char × QueryTiming).2.unixTimestamp =
      some 555 := by
  constructor
  · exact (C5_first_write_wins false).1
      ⟨[(['q'], { count := 1, query := ['q'], unixTimestamp := some 111 })],
        { count := 1, query := ['q'], unixTimestamp := some 555 }⟩
      ["# Time:".toList]
      ⟨[(['q'],
          { count := 2, query := ['q'], unixTimestamp := some 111 })],
        initTiming⟩
      ['q']
      (['q'], { count := 1, query := ['q'], unixTimestamp := some 111 })
      (by decide) (by decide)
  · exact (C5_first_write_wins false).2
      ⟨[], { count := 1, query := ['q'], unixTimestamp := some 555 }⟩
      "# Time:".toList
      ⟨[(['q'],
          { count := 1, query := ['q'], unixTimestamp := some 555 })],
        initTiming⟩
      ['q']
      (['q'], { count := 1, query := ['q'], unixTimestamp := some 555 })
      (by decide) (by decide) (by decide)

/-! ## C9 — entries are committed by boundaries only -/

/-- **C9.**  Lines processed after the last boundary never touch the
aggregation map: if `extra` contains no boundary line, running it after
any run leaves the map — and hence both reports, which are functions of
the map values — exactly as they were.  In particular a final entry with
no trailing `# Time:` line is never committed. -/
theorem C9_no_trailing_boundary (cw : Bool) (st st₁ st' : AState)
    (lines extra : List (List Char))
    (hex : ∀ l ∈ extra, isBoundary cw l = false)
    (h1 : runFrom cw st lines = some st₁)
    (h2 : runFrom cw st₁ extra = some st') :
    st'.map = st₁.map ∧
    runFrom cw st (lines ++ extra) = some st' ∧
    sortTimings (st'.map.map Prod.snd) =
      sortTimings (st₁.map.map Prod.snd) ∧
    sortConnections (st'.map.map Prod.snd) =
      sortConnections (st₁.map.map Prod.snd) := by
  have hmap : st'.map = st₁.map := by
    clear h1
    induction extra generalizing st₁ with
    | nil =>
        cases h2
        rfl
    | cons l ls ih =>
        rw [runFrom, List.foldlM_cons] at h2
        cases hstep : processLine cw st₁ l with
        | none => rw [hstep] at h2; cases h2
        | some st₂ =>
            rw [hstep] at h2
            have hl : isBoundary cw l = false := hex l (by simp)
            have h₂₁ : st₂.map = st₁.map :=
              processLine_not_boundary_map hl hstep
            have hrest := ih st₂
              (fun l' hl' => hex l' (List.mem_cons_of_mem _ hl')) h2
            rw [hrest, h₂₁]
  refine ⟨hmap, ?_, by rw [hmap], by rw [hmap]⟩
  rw [runFrom, List.foldlM_append]
  rw [runFrom] at h1 h2
  rw [h1]
  exact h2

/-- Witness for C9: a trailing query line and timestamp line after the
last boundary leave the committed map unchanged. -/
theorem C9_witness :
    ∃ st', runFrom false
        ⟨[(['q'], { count := 1, query := ['q'] })], initTiming⟩
        ["SET timestamp=5;".toList, "tail query".toList] = some st' ∧
      st'.map = [(['q'], { count := 1, query := ['q'] })] := by
  refine ⟨⟨[(['q'], { count := 1, query := ['q'] })],
    { count := 1, query := "tail query".toList,
      unixTimestamp := some 5 }⟩, by decide, ?_⟩
  exact (C9_no_trailing_boundary false
    ⟨[(['q'], { count := 1, query := ['q'] })], initTiming⟩
    ⟨[(['q'], { count := 1, query := ['q'] })], initTiming⟩
    ⟨[(['q'], { count := 1, query := ['q'] })],
      { count := 1, query := "tail query".toList,
        unixTimestamp := some 5 }⟩
    [] ["SET timestamp=5;".toList, "tail query".toList]
    (by decide) (by decide) (by decide)).1

/-! ## C6 / C10 — malformed marker lines are fatal -/

/-- If `p` is a prefix of `line` and `q` neither extends nor is extended
by `p`, then `q` is not a prefix of `line`. -/
lemma isPrefixOf_false_of_conflict {p q line : List Char}
    (hp : p.isPrefixOf line = true) (h1 : ¬q <+: p) (h2 : ¬p <+: q) :
    q.isPrefixOf line = false := by
  cases hq : q.isPrefixOf line with
  | false => rfl
  | true =>
      rcases List.prefix_or_prefix_of_prefix
        (List.isPrefixOf_iff_prefix.mp hq)
        (List.isPrefixOf_iff_prefix.mp hp) with h | h
      · exact absurd h h1
      · exact absurd h h2

/-- **C6.**  On a line starting with `# Query_time` (and not classified
as a boundary), a failed match of the fixed
`Query_time/Lock_time/Rows_sent/Rows_examined` pattern crashes the
handler (`none`), never yielding default timing values; a successful
match sets exactly `queryTime`/`lockTime` from the first two captures
(`Rows_sent`/`Rows_examined` are dropped) and touches nothing else. -/
theorem C6_malformed_query_time (cw : Bool) (st : AState) (line : List Char)
    (hb : isBoundary cw line = false)
    (hp : "# Query_time".toList.isPrefixOf line = true) :
    (searchQT line = none → processLine cw st line = none) ∧
    (∀ g1 g2, searchQT line = some (g1, g2) →
      processLine cw st line =
        some { st with current :=
          { st.current with
            queryTime := jsParseFloat g1
            lockTime := jsParseFloat g2 } }) := by
  constructor
  · intro hs
    unfold processLine
    rw [hb]
    simp only [Bool.false_eq_true, if_false]
    rw [if_pos hp, hs]
  · intro g1 g2 hs
    unfold processLine
    rw [hb]
    simp only [Bool.false_eq_true, if_false]
    rw [if_pos hp, hs]

/-- Witness for C6: `# Query_timeX` crashes; a well-formed line parses
its first two numeric fields. -/
theorem C6_witness :
    processLine false initState "# Query_timeX".toList = none ∧
    processLine false initState
        "# Query_time: 1.5  Lock_time: 0.2 Rows_sent: 1  Rows_examined: 10".toList =
      some { initState with current :=
        { initState.current with
          queryTime := jsParseFloat ['1', '.', '5']
          lockTime := jsParseFloat ['0', '.', '2'] } } := by
  constructor
  · exact (C6_malformed_query_time false initState "# Query_timeX".toList
      (by decide) (by decide)).1 (by decide)
  · exact (C6_malformed_query_time false initState
      "# Query_time: 1.5  Lock_time: 0.2 Rows_sent: 1  Rows_examined: 10".toList
      (by decide) (by decide)).2 ['1', '.', '5'] ['0', '.', '2'] (by decide)

/-- Negation form of `isPrefixOf_false_of_conflict`, matching the shape
of `processLine`'s branch conditions. -/
lemma isPrefixOf_ne_true_of_conflict {p q line : List Char}
    (hp : p.isPrefixOf line = true) (h1 : ¬q <+: p) (h2 : ¬p <+: q) :
    ¬(q.isPrefixOf line = true) := by
  intro hq
  rcases List.prefix_or_prefix_of_prefix
    (List.isPrefixOf_iff_prefix.mp hq)
    (List.isPrefixOf_iff_prefix.mp hp) with h | h
  · exact h1 h
  · exact h2 h

/-- **C10.**  On lines carrying the `SET timestamp=`, `# Thread_id:` or
`# User@Host` markers (and not classified as a boundary), a failed
extraction regex crashes the handler (`none` — the unguarded `match[1]`
of a `null` match) instead of leaving the field absent; a successful
extraction sets exactly `unixTimestamp` resp. `connectionId`.  (A marker
that never occurs is tolerated: no other branch reads these fields.) -/
theorem C10_malformed_metadata (cw : Bool) (st : AState) (line : List Char)
    (hb : isBoundary cw line = false) :
    ("SET timestamp=".toList.isPrefixOf line = true →
      (searchTS line = none → processLine cw st line = none) ∧
      (∀ n, searchTS line = some n →
        processLine cw st line =
          some { st with current.unixTimestamp := some n })) ∧
    ("# Thread_id:".toList.isPrefixOf line = true →
      (searchThread line = none → processLine cw st line = none) ∧
      (∀ n, searchThread line = some n →
        processLine cw st line =
          some { st with current.connectionId := some n })) ∧
    ("# User@Host".toList.isPrefixOf line = true →
      (searchUser line = none → processLine cw st line = none) ∧
      (∀ n, searchUser line = some n →
        processLine cw st line =
          some { st with current.connectionId := some n })) := by
  refine ⟨fun hpre => ?_, fun hpre => ?_, fun hpre => ?_⟩
  · have hqt : ¬("# Query_time".toList.isPrefixOf line = true) :=
      isPrefixOf_ne_true_of_conflict hpre (by decide) (by decide)
    constructor
    · intro hs
      unfold processLine
      rw [hb]
      simp only [Bool.false_eq_true, if_false]
      rw [if_neg hqt, if_pos hpre, hs]
    · intro n hs
      unfold processLine
      rw [hb]
      simp only [Bool.false_eq_true, if_false]
      rw [if_neg hqt, if_pos hpre, hs]
  · have hqt : ¬("# Query_time".toList.isPrefixOf line = true) :=
      isPrefixOf_ne_true_of_conflict hpre (by decide) (by decide)
    have hset : ¬("SET timestamp=".toList.isPrefixOf line = true) :=
      isPrefixOf_ne_true_of_conflict hpre (by decide) (by decide)
    constructor
    · intro hs
      unfold processLine
      rw [hb]
      simp only [Bool.false_eq_true, if_false]
      rw [if_neg hqt, if_neg hset, if_pos hpre, hs]
    · intro n hs
      unfold processLine
      rw [hb]
      simp only [Bool.false_eq_true, if_false]
      rw [if_neg hqt, if_neg hset, if_pos hpre, hs]
  · have hqt : ¬("# Query_time".toList.isPrefixOf line = true) :=
      isPrefixOf_ne_true_of_conflict hpre (by decide) (by decide)
    have hset : ¬("SET timestamp=".toList.isPrefixOf line = true) :=
      isPrefixOf_ne_true_of_conflict hpre (by decide) (by decide)
    have hth : ¬("# Thread_id:".toList.isPrefixOf line = true) :=
      isPrefixOf_ne_true_of_conflict hpre (by decide) (by decide)
    constructor
    · intro hs
      unfold processLine
      rw [hb]
      simp only [Bool.false_eq_true, if_false]
      rw [if_neg hqt, if_neg hset, if_neg hth, if_pos hpre, hs]
    · intro n hs
      unfold processLine
      rw [hb]
      simp only [Bool.false_eq_true, if_false]
      rw [if_neg hqt, if_neg hset, if_neg hth, if_pos hpre, hs]

/-- Witness for C10: `SET timestamp=;` (no digits), `# Thread_id: abc`
and `# User@Host: root[root] @ localhost []` (no `Id:`) all crash;
well-formed variants set the fields. -/
theorem C10_witness :
    processLine false initState "SET timestamp=;".toList = none ∧
    processLine false initState "# Thread_id: abc".toList = none ∧
    processLine false initState
      "# User@Host: root[root] @ localhost []".toList = none ∧
    processLine false initState
        "# User@Host: user[user] @ [1.2.3.4] Id: 42".toList =
      some { initState with current.connectionId := some 42 } := by
  refine ⟨?_, ?_, ?_, ?_⟩
  · exact ((C10_malformed_metadata false initState "SET timestamp=;".toList
      (by decide)).1 (by decide)).1 (by decide)
  · exact ((C10_malformed_metadata false initState "# Thread_id: abc".toList
      (by decide)).2.1 (by decide)).1 (by decide)
  · exact ((C10_malformed_metadata false initState
      "# User@Host: root[root] @ localhost []".toList
      (by decide)).2.2 (by decide)).1 (by decide)
  · exact ((C10_malformed_metadata false initState
      "# User@Host: user[user] @ [1.2.3.4] Id: 42".toList
      (by decide)).2.2 (by decide)).2 42 (by decide)

/-! ## C8 — report ordering -/

/-- `orderedInsert` only consults the relation between the inserted
element and members. -/
lemma orderedInsert_congr {α : Type} {r s : α → α → Prop}
    [DecidableRel r] [DecidableRel s] (a : α) :
    ∀ l : List α, (∀ x ∈ l, r a x ↔ s a x) →
      List.orderedInsert r a l = List.orderedInsert s a l
  | [], _ => rfl
  | b :: l, h => by
      simp only [List.orderedInsert]
      by_cases hr : r a b
      · rw [if_pos hr, if_pos ((h b (by simp)).mp hr)]
      · rw [if_neg hr, if_neg (fun hs => hr ((h b (by simp)).mpr hs))]
        rw [orderedInsert_congr a l (fun x hx => h x (by simp [hx]))]

/-- `insertionSort` only consults the relation between members. -/
lemma insertionSort_congr {α : Type} {r s : α → α → Prop}
    [DecidableRel r] [DecidableRel s] :
    ∀ l : List α, (∀ x ∈ l, ∀ y ∈ l, r x y ↔ s x y) →
      List.insertionSort r l = List.insertionSort s l
  | [], _ => rfl
  | a :: l, h => by
      simp only [List.insertionSort]
      rw [insertionSort_congr l
        (fun x hx y hy => h x (by simp [hx]) y (by simp [hy]))]
      exact orderedInsert_congr a _
        (fun x hx => h a (by simp) x
          (by simp [(List.mem_insertionSort s).mp hx]))

/-- Stability of `insertionSort`: elements picked out by a predicate on
which the relation is reflexive keep their original relative order. -/
lemma insertionSort_filter_stable {α : Type} {r : α → α → Prop}
    [DecidableRel r] (l : List α) (p : α → Bool)
    (hp : ∀ a b, p a = true → p b = true → r a b) :
    (List.insertionSort r l).filter p = l.filter p := by
  have hpairs : (l.filter p).Pairwise r := by
    have : ∀ m : List α, (∀ x ∈ m, p x = true) → m.Pairwise r := by
      intro m
      induction m with
      | nil => intro _; exact List.Pairwise.nil
      | cons a m ih =>
          intro hm
          exact List.Pairwise.cons
            (fun b hb => hp a b (hm a (by simp)) (hm b (by simp [hb])))
            (ih fun x hx => hm x (by simp [hx]))
    exact this _ (fun x hx => List.of_mem_filter hx)
  have hsub : (l.filter p).Sublist (List.insertionSort r l) :=
    List.sublist_insertionSort hpairs (List.filter_sublist l)
  have hsub2 : (l.filter p).Sublist ((List.insertionSort r l).filter p) := by
    have := List.Sublist.filter p hsub
    rwa [List.filter_filter, show (fun a => p a && p a) = p by
      funext a; cases p a <;> rfl] at this
  have hperm : ((List.insertionSort r l).filter p).Perm (l.filter p) :=
    (List.perm_insertionSort r l).filter p
  exact (hsub2.eq_of_length hperm.length_eq.symm).symm

/-- The grouping loop keeps bucket keys pairwise distinct, and every key
is the `unixTimestamp` of one of the grouped values. -/
lemma buildBuckets_pairwise (vals : List QueryTiming)
    (hts : ∀ v ∈ vals, v.unixTimestamp.isSome = true) :
    (buildBuckets vals).Pairwise (fun p q => p.1 ≠ q.1) ∧
    ∀ p ∈ buildBuckets vals, p.1.isSome = true := by
  have main : ∀ (vs : List QueryTiming)
      (acc : List (Option Int × List (List Char))),
      (∀ v ∈ vs, v.unixTimestamp.isSome = true) →
      acc.Pairwise (fun p q => p.1 ≠ q.1) →
      (∀ p ∈ acc, p.1.isSome = true) →
      (vs.foldl bucketStep acc).Pairwise (fun p q => p.1 ≠ q.1) ∧
      ∀ p ∈ vs.foldl bucketStep acc, p.1.isSome = true := by
    intro vs
    induction vs with
    | nil => intro acc _ h1 h2; exact ⟨h1, h2⟩
    | cons v vs ih =>
        intro acc hvs h1 h2
        rw [List.foldl_cons]
        have hfst : ∀ p : Option Int × List (List Char),
            (if p.1 == v.unixTimestamp then
              (p.1, p.2 ++ [v.query]) else p).1 = p.1 := by
          intro p
          by_cases hc : p.1 = v.unixTimestamp
          · rw [if_pos (by simpa using hc)]
          · rw [if_neg (by simpa using hc)]
        refine ih (bucketStep acc v) (fun w hw => hvs w (by simp [hw]))
          ?_ ?_
        · unfold bucketStep
          split
          · rw [List.pairwise_map]
            refine h1.imp_of_mem ?_
            intro p q _ _ hne
            simpa only [hfst] using hne
          · rw [List.pairwise_append]
            refine ⟨h1, by simp, ?_⟩
            intro p hp b hb
            rcases List.mem_singleton.mp hb with rfl
            intro hcontra
            rename_i hany
            rw [List.any_eq_true] at hany
            exact hany ⟨p, hp, by simp [hcontra]⟩
        · unfold bucketStep
          split
          · intro p hp
            obtain ⟨p0, hp0, rfl⟩ := List.mem_map.mp hp
            rw [hfst p0]
            exact h2 p0 hp0
          · intro p hp
            rcases List.mem_append.mp hp with hmem | hmem
            · exact h2 p hmem
            · rcases List.mem_singleton.mp hmem with rfl
              exact hvs v (by simp)
  exact main vals [] hts List.Pairwise.nil (by simp)

/-- On stats whose `totalTime` fields are numbers, the timing comparator
relation is `totalTime` descending. -/
lemma timingBefore_iff {a b : QueryTiming}
    (ha : a.totalTime.isSome = true) (hb : b.totalTime.isSome = true) :
    timingBefore a b ↔ b.totalTime.getD 0 ≤ a.totalTime.getD 0 := by
  obtain ⟨x, hx⟩ := Option.isSome_iff_exists.mp ha
  obtain ⟨y, hy⟩ := Option.isSome_iff_exists.mp hb
  simp [timingBefore, jsSub, hx, hy, jsPos, sub_nonpos, not_lt]

/-- Stats with equal `totalTime` never force a swap (`NaN` included). -/
lemma timingBefore_of_eq {a b : QueryTiming}
    (h : a.totalTime = b.totalTime) : timingBefore a b := by
  unfold timingBefore
  rw [h]
  cases hb : b.totalTime with
  | none => rfl
  | some q => simp [jsSub, jsPos]

/-- On buckets whose timestamps are numbers, the connections comparator
relation is timestamp ascending. -/
lemma connBefore_iff {a b : ConnBucket}
    (ha : a.unixTimestamp.isSome = true)
    (hb : b.unixTimestamp.isSome = true) :
    connBefore a b ↔ a.unixTimestamp.getD 0 ≤ b.unixTimestamp.getD 0 := by
  obtain ⟨x, hx⟩ := Option.isSome_iff_exists.mp ha
  obtain ⟨y, hy⟩ := Option.isSome_iff_exists.mp hb
  simp [connBefore, jsSubI, hx, hy, jsPosI, sub_nonpos, not_lt]

/-- **C8.**  When every stat carries a `totalTime` and a `unixTimestamp`
(comparator results are numbers, not `NaN`): the timing report's rows are
sorted descending by `totalTime`; rows with equal `totalTime` keep their
original relative order (stability, which in fact needs no hypothesis);
and the connections report's buckets are sorted strictly ascending by
timestamp (strictness from the grouping map's distinct keys). -/
theorem C8_report_sorting (vals : List QueryTiming)
    (htt : ∀ v ∈ vals, v.totalTime.isSome = true)
    (hts : ∀ v ∈ vals, v.unixTimestamp.isSome = true) :
    ((sortTimings vals).Pairwise fun a b =>
      ∀ x y, a.totalTime = some x → b.totalTime = some y → y ≤ x) ∧
    (∀ t : Option ℚ, (sortTimings vals).filter (fun v => v.totalTime == t) =
      vals.filter (fun v => v.totalTime == t)) ∧
    ((sortConnections vals).Pairwise fun a b =>
      ∀ x y, a.unixTimestamp = some x → b.unixTimestamp = some y →
        x < y) := by
  refine ⟨?_, ?_, ?_⟩
  · -- descending by totalTime
    have hcongr : sortTimings vals =
        List.insertionSort
          (fun a b : QueryTiming => b.totalTime.getD 0 ≤ a.totalTime.getD 0)
          vals :=
      insertionSort_congr vals
        (fun x hx y hy => timingBefore_iff (htt x hx) (htt y hy))
    haveI : IsTotal QueryTiming
        (fun a b => b.totalTime.getD 0 ≤ a.totalTime.getD 0) :=
      ⟨fun a b => le_total _ _⟩
    haveI : IsTrans QueryTiming
        (fun a b => b.totalTime.getD 0 ≤ a.totalTime.getD 0) :=
      ⟨fun _ _ _ h1 h2 => le_trans h2 h1⟩
    have hsorted := List.sorted_insertionSort
      (fun a b : QueryTiming => b.totalTime.getD 0 ≤ a.totalTime.getD 0)
      vals
    rw [hcongr]
    refine hsorted.imp_of_mem ?_
    intro a b hma hmb hle x y hx hy
    rw [List.mem_insertionSort] at hma hmb
    rw [hx] at hle
    rw [hy] at hle
    simpa using hle
  · -- stability
    intro t
    exact insertionSort_filter_stable vals _
      (fun a b ha hb =>
        timingBefore_of_eq (by
          rw [beq_iff_eq] at ha hb
          rw [ha, hb]))
  · -- strictly ascending by timestamp
    obtain ⟨hpair, hsome⟩ := buildBuckets_pairwise vals hts
    have hpairC : (connTimings vals).Pairwise
        (fun a b : ConnBucket => a.unixTimestamp ≠ b.unixTimestamp) := by
      unfold connTimings
      rw [List.pairwise_map]
      exact hpair.imp_of_mem (fun _ _ h => h)
    have hsomeC : ∀ b ∈ connTimings vals, b.unixTimestamp.isSome = true := by
      intro b hb
      obtain ⟨p, hp, rfl⟩ := List.mem_map.mp hb
      exact hsome p hp
    have hcongr : sortConnections vals =
        List.insertionSort
          (fun a b : ConnBucket =>
            a.unixTimestamp.getD 0 ≤ b.unixTimestamp.getD 0)
          (connTimings vals) :=
      insertionSort_congr _
        (fun x hx y hy => connBefore_iff (hsomeC x hx) (hsomeC y hy))
    haveI : IsTotal ConnBucket
        (fun a b => a.unixTimestamp.getD 0 ≤ b.unixTimestamp.getD 0) :=
      ⟨fun a b => le_total _ _⟩
    haveI : IsTrans ConnBucket
        (fun a b => a.unixTimestamp.getD 0 ≤ b.unixTimestamp.getD 0) :=
      ⟨fun _ _ _ h1 h2 => le_trans h1 h2⟩
    have hsorted := List.sorted_insertionSort
      (fun a b : ConnBucket =>
        a.unixTimestamp.getD 0 ≤ b.unixTimestamp.getD 0)
      (connTimings vals)
    have hpairS : (List.insertionSort
        (fun a b : ConnBucket =>
          a.unixTimestamp.getD 0 ≤ b.unixTimestamp.getD 0)
        (connTimings vals)).Pairwise
        (fun a b : ConnBucket => a.unixTimestamp ≠ b.unixTimestamp) := by
      refine (List.Perm.pairwise_iff (fun h => h.symm) ?_).mpr hpairC
      exact List.perm_insertionSort _ _
    rw [hcongr]
    refine (hsorted.and hpairS).imp_of_mem ?_
    intro a b hma hmb hab x y hx hy
    obtain ⟨hle, hne⟩ := hab
    rw [hx, hy] at hle hne
    simp only [Option.getD_some] at hle
    exact lt_of_le_of_ne hle (by simpa using hne)

/-- Witness for C8 on two concrete stats with distinct total times and
timestamps. -/
theorem C8_witness :
    ((sortTimings
        [{ count := 1, query := ['a'], totalTime := some 1,
           unixTimestamp := some 10 },
         { count := 1, query := ['b'], totalTime := some 3,
           unixTimestamp := some 5 }]).Pairwise fun a b =>
      ∀ x y, a.totalTime = some x → b.totalTime = some y → y ≤ x) ∧
    (∀ t : Option ℚ,
      (sortTimings
        [{ count := 1, query := ['a'], totalTime := some 1,
           unixTimestamp := some 10 },
         { count := 1, query := ['b'], totalTime := some 3,
           unixTimestamp := some 5 }]).filter (fun v => v.totalTime == t) =
      List.filter (fun v => v.totalTime == t)
        [{ count := 1, query := ['a'], totalTime := some 1,
           unixTimestamp := some 10 },
         { count := 1, query := ['b'], totalTime := some 3,
           unixTimestamp := some 5 }]) ∧
    ((sortConnections
        [{ count := 1, query := ['a'], totalTime := some 1,
           unixTimestamp := some 10 },
         { count := 1, query := ['b'], totalTime := some 3,
           unixTimestamp := some 5 }]).Pairwise fun a b =>
      ∀ x y, a.unixTimestamp = some x → b.unixTimestamp = some y →
        x < y) :=
  C8_report_sorting
    [{ count := 1, query := ['a'], totalTime := some 1,
       unixTimestamp := some 10 },
     { count := 1, query := ['b'], totalTime := some 3,
       unixTimestamp := some 5 }]
    (by decide) (by decide)

/-! ## C4 — normalization is determined by literal structure

The development below characterizes the two substitution passes on
template instantiations: a number match can neither start at an inert
character nor extend across one, so `numSub` maps an instantiated
template to its fragment text with `?` in numeric slots and the
(digit-substituted) string literals intact; `strSub` then collapses each
quoted block to `?`.  The composite is the template's `skeleton`,
independent of the literal values. -/

lemma digitSpan_nil : digitSpan [] = 0 := rfl

lemma digitSpan_cons_digit {c : Char} {l : List Char}
    (h : isDigitC c = true) : digitSpan (c :: l) = digitSpan l + 1 := by
  simp [digitSpan, List.takeWhile_cons, h]

lemma digitSpan_cons_nondigit {c : Char} {l : List Char}
    (h : isDigitC c = false) : digitSpan (c :: l) = 0 := by
  simp [digitSpan, List.takeWhile_cons, h]

lemma digitSpan_le (l : List Char) : digitSpan l ≤ l.length := by
  induction l with
  | nil => exact Nat.le_refl 0
  | cons c cs ih =>
      cases hc : isDigitC c with
      | true =>
          rw [digitSpan_cons_digit hc]
          simpa using ih
      | false =>
          rw [digitSpan_cons_nondigit hc]
          exact Nat.zero_le _

/-- A digit run cannot reach into a suffix that starts with a
non-digit. -/
lemma digitSpan_append_safe {rest : List Char}
    (h : ∀ c, rest.head? = some c → isDigitC c = false) :
    ∀ x : List Char, digitSpan (x ++ rest) = digitSpan x := by
  intro x
  induction x with
  | nil =>
      cases rest with
      | nil => rfl
      | cons c cs =>
          simp only [List.nil_append, digitSpan_nil]
          exact digitSpan_cons_nondigit (h c rfl)
  | cons c cs ih =>
      cases hc : isDigitC c with
      | true =>
          rw [List.cons_append, digitSpan_cons_digit hc,
            digitSpan_cons_digit hc, ih]
      | false =>
          rw [List.cons_append, digitSpan_cons_nondigit hc,
            digitSpan_cons_nondigit hc]

/-- The body matcher ignores a suffix that starts with neither a digit
nor a dot. -/
lemma numBody_append {rest : List Char}
    (hr : ∀ c, rest.head? = some c → isDigitC c = false ∧ c ≠ '.') :
    ∀ t : List Char, numBody (t ++ rest) = numBody t := by
  have hd : ∀ c, rest.head? = some c → isDigitC c = false :=
    fun c h => (hr c h).1
  intro t
  simp only [numBody, digitSpan_append_safe hd t,
    List.drop_append_of_le_length (digitSpan_le t)]
  cases hdrop : t.drop (digitSpan t) with
  | nil =>
      simp only [List.nil_append]
      cases hrest : rest with
      | nil => rfl
      | cons c cs =>
          have hc := hr c (by rw [hrest]; rfl)
          dsimp only
          rw [if_neg hc.2]
  | cons c e =>
      simp only [List.cons_append]
      by_cases hc : c = '.'
      · rw [if_pos hc, if_pos hc, digitSpan_append_safe hd e]
      · rw [if_neg hc, if_neg hc]

/-- The whole matcher ignores such a suffix, on non-empty input. -/
lemma tryMatchNum_cons_append {c : Char} {cs rest : List Char}
    (hr : ∀ c', rest.head? = some c' → isDigitC c' = false ∧ c' ≠ '.') :
    tryMatchNum ((c :: cs) ++ rest) = tryMatchNum (c :: cs) := by
  simp only [List.cons_append, tryMatchNum]
  by_cases hs : isSignC c
  · rw [if_pos hs, if_pos hs, numBody_append hr]
  · rw [if_neg hs, if_neg hs]
    exact numBody_append hr (c :: cs)

/-- No number match starts at an inert character (not a digit, sign or
dot). -/
lemma tryMatchNum_none_inert {c : Char} {cs : List Char}
    (hd : isDigitC c = false) (hs : isSignC c = false) (hp : c ≠ '.') :
    tryMatchNum (c :: cs) = none := by
  simp only [tryMatchNum, hs, Bool.false_eq_true, if_false, numBody,
    digitSpan_cons_nondigit hd, List.drop_zero]
  rw [if_neg hp]
  rfl

/-- A match never has length `0` and never exceeds the input. -/
lemma tryMatchNum_bounds {s : List Char} {k : Nat}
    (h : tryMatchNum s = some k) : 1 ≤ k ∧ k ≤ s.length := by
  have hbody : ∀ (t : List Char) (v : Nat), numBody t = some v →
      1 ≤ v ∧ v ≤ t.length := by
    intro t v hv
    simp only [numBody] at hv
    cases hdrop : t.drop (digitSpan t) with
    | nil =>
        rw [hdrop] at hv
        dsimp only at hv
        by_cases hn : 0 < digitSpan t
        · rw [if_pos hn] at hv
          cases hv
          exact ⟨hn, digitSpan_le t⟩
        · rw [if_neg hn] at hv
          cases hv
    | cons c u =>
        rw [hdrop] at hv
        dsimp only at hv
        have hlen : t.length = digitSpan t + 1 + u.length := by
          have h1 : (t.drop (digitSpan t)).length =
              t.length - digitSpan t := List.length_drop _ _
          rw [hdrop] at h1
          simp only [List.length_cons] at h1
          have := digitSpan_le t
          omega
        by_cases hc : c = '.'
        · rw [if_pos hc] at hv
          by_cases hm : 0 < digitSpan u
          · rw [if_pos hm] at hv
            cases hv
            have := digitSpan_le u
            omega
          · rw [if_neg hm] at hv
            by_cases hn : 0 < digitSpan t
            · rw [if_pos hn] at hv
              cases hv
              omega
            · rw [if_neg hn] at hv
              cases hv
        · rw [if_neg hc] at hv
          by_cases hn : 0 < digitSpan t
          · rw [if_pos hn] at hv
            cases hv
            have := digitSpan_le t
            omega
          · rw [if_neg hn] at hv
            cases hv
  cases s with
  | nil => cases h
  | cons c cs =>
      simp only [tryMatchNum] at h
      by_cases hs : isSignC c
      · rw [if_pos hs] at h
        cases hb : numBody cs with
        | none => rw [hb] at h; cases h
        | some v =>
            rw [hb] at h
            simp only [Option.map_some'] at h
            cases h
            have := hbody cs v hb
            simp only [List.length_cons]
            omega
      · rw [if_neg hs] at h
        have := hbody (c :: cs) k h
        exact this

lemma inertChar_spec {c : Char} (h : inertChar c = true) :
    isDigitC c = false ∧ isSignC c = false ∧ c ≠ '.' ∧ c ≠ '\'' := by
  simp only [inertChar, Bool.and_eq_true, Bool.not_eq_true'] at h
  refine ⟨h.1.1.1, h.1.1.2, ?_, ?_⟩
  · simpa using h.1.2
  · simpa using h.2

/-- `numSub` distributes over an append whose right part starts with
neither a digit nor a dot. -/
lemma numSub_append :
    ∀ (a rest : List Char),
      (∀ c, rest.head? = some c → isDigitC c = false ∧ c ≠ '.') →
      numSub (a ++ rest) = numSub a ++ numSub rest
  | [], _, _ => by simp [numSub_nil]
  | c :: cs, rest, hr => by
      rw [List.cons_append]
      cases htm : tryMatchNum (c :: cs) with
      | none =>
          have htm' : tryMatchNum (c :: (cs ++ rest)) = none := by
            have h : tryMatchNum ((c :: cs) ++ rest) = tryMatchNum (c :: cs) :=
              tryMatchNum_cons_append hr
            rw [List.cons_append] at h
            rw [h, htm]
          rw [numSub_cons_nomatch htm', numSub_cons_nomatch htm,
            numSub_append cs rest hr]
          rfl
      | some k =>
          have hk := tryMatchNum_bounds htm
          have htm' : tryMatchNum (c :: (cs ++ rest)) = some k := by
            have h : tryMatchNum ((c :: cs) ++ rest) = tryMatchNum (c :: cs) :=
              tryMatchNum_cons_append hr
            rw [List.cons_append] at h
            rw [h, htm]
          rw [numSub_cons_match htm', numSub_cons_match htm]
          have hdrop : (cs ++ rest).drop (k - 1) = cs.drop (k - 1) ++ rest :=
            List.drop_append_of_le_length
              (by simp only [List.length_cons] at hk; omega)
          rw [hdrop, numSub_append (cs.drop (k - 1)) rest hr]
          rfl
termination_by a _ _ => a.length
decreasing_by
  · simp
  · simp only [List.length_drop, List.length_cons]
    omega

/-- `numSub` passes an inert prefix through verbatim. -/
lemma numSub_inert_prefix :
    ∀ {f : List Char}, (∀ c ∈ f, inertChar c = true) →
      ∀ rest, numSub (f ++ rest) = f ++ numSub rest
  | [], _, _ => by simp
  | c :: f, hf, rest => by
      obtain ⟨hd, hs, hp, _⟩ := inertChar_spec (hf c (by simp))
      rw [List.cons_append,
        numSub_cons_nomatch (tryMatchNum_none_inert hd hs hp),
        numSub_inert_prefix (fun x hx => hf x (by simp [hx])) rest]
      rfl

/-- Every character `numSub` emits is a `?` or one of the input's
characters. -/
lemma mem_numSub :
    ∀ (l : List Char), ∀ c ∈ numSub l, c = '?' ∨ c ∈ l
  | [] => by simp [numSub_nil]
  | a :: l => by
      cases htm : tryMatchNum (a :: l) with
      | none =>
          rw [numSub_cons_nomatch htm]
          intro c hc
          rcases List.mem_cons.mp hc with rfl | hc
          · exact Or.inr (by simp)
          · rcases mem_numSub l c hc with h | h
            · exact Or.inl h
            · exact Or.inr (by simp [h])
      | some k =>
          rw [numSub_cons_match htm]
          intro c hc
          rcases List.mem_cons.mp hc with rfl | hc
          · exact Or.inl rfl
          · rcases mem_numSub (l.drop (k - 1)) c hc with h | h
            · exact Or.inl h
            · exact Or.inr (List.mem_cons_of_mem a
                (List.drop_subset (k - 1) l h))
termination_by l => l.length
decreasing_by
  · simp
  · simp only [List.length_drop, List.length_cons]
    omega

/-- All-digit runs span their whole length. -/
lemma digitSpan_all {u : List Char} (h : ∀ c ∈ u, isDigitC c = true) :
    digitSpan u = u.length := by
  induction u with
  | nil => rfl
  | cons c cs ih =>
      rw [digitSpan_cons_digit (h c (by simp)),
        ih (fun x hx => h x (by simp [hx]))]
      rfl

/-- A well-formed numeric literal followed by safe text matches exactly
itself. -/
lemma tryMatchNum_numlit {L rest : List Char}
    (hL : isNumLitL L = true)
    (hr : ∀ c, rest.head? = some c → isDigitC c = false ∧ c ≠ '.') :
    tryMatchNum (L ++ rest) = some L.length := by
  have hd : ∀ c, rest.head? = some c → isDigitC c = false :=
    fun c h => (hr c h).1
  have hbody : ∀ s : List Char, isNumBodyL s = true →
      numBody (s ++ rest) = some s.length := by
    intro s hs
    simp only [isNumBodyL] at hs
    simp only [numBody, digitSpan_append_safe hd s,
      List.drop_append_of_le_length (digitSpan_le s)]
    cases hdrop : s.drop (digitSpan s) with
    | nil =>
        rw [hdrop] at hs
        dsimp only at hs
        have hn : 0 < digitSpan s := of_decide_eq_true hs
        have hlen : digitSpan s = s.length := by
          have h1 : (s.drop (digitSpan s)).length = s.length - digitSpan s :=
            List.length_drop _ _
          rw [hdrop] at h1
          simp only [List.length_nil] at h1
          have := digitSpan_le s
          omega
        simp only [List.nil_append]
        cases hrest : rest with
        | nil =>
            dsimp only
            rw [if_pos hn, hlen]
        | cons c cs =>
            have hc := hr c (by rw [hrest]; rfl)
            dsimp only
            rw [if_neg hc.2, if_pos hn, hlen]
    | cons c u =>
        rw [hdrop] at hs
        dsimp only at hs
        simp only [Bool.and_eq_true, decide_eq_true_eq, Bool.not_eq_true',
          List.all_eq_true] at hs
        obtain ⟨⟨hc, hune⟩, hall⟩ := hs
        have hu : u ≠ [] := by
          intro h
          rw [h] at hune
          simp at hune
        rw [List.cons_append]
        dsimp only
        rw [if_pos hc]
        have hspan : digitSpan (u ++ rest) = u.length := by
          rw [digitSpan_append_safe hd u, digitSpan_all hall]
        rw [hspan]
        rw [if_pos (List.length_pos.mpr hu)]
        have hlen : s.length = digitSpan s + 1 + u.length := by
          have h1 : (s.drop (digitSpan s)).length = s.length - digitSpan s :=
            List.length_drop _ _
          rw [hdrop] at h1
          simp only [List.length_cons] at h1
          have := digitSpan_le s
          omega
        simp only [Option.some.injEq]
        omega
  cases L with
  | nil => simp [isNumLitL] at hL
  | cons c L' =>
      simp only [isNumLitL] at hL
      by_cases hsgn : isSignC c
      · rw [if_pos hsgn] at hL
        rw [List.cons_append]
        simp only [tryMatchNum]
        rw [if_pos hsgn, hbody L' hL]
        simp
      · rw [if_neg hsgn] at hL
        rw [List.cons_append]
        simp only [tryMatchNum]
        rw [if_neg hsgn]
        have h := hbody (c :: L') hL
        rw [List.cons_append] at h
        exact h

/-- Substituting a well-formed numeric literal: exactly the literal
becomes `?`. -/
lemma numSub_numlit {L rest : List Char}
    (hL : isNumLitL L = true)
    (hr : ∀ c, rest.head? = some c → isDigitC c = false ∧ c ≠ '.') :
    numSub (L ++ rest) = '?' :: numSub rest := by
  cases L with
  | nil => simp [isNumLitL] at hL
  | cons c L' =>
      have htm : tryMatchNum (c :: (L' ++ rest)) = some (c :: L').length := by
        have h := tryMatchNum_numlit hL hr
        rw [List.cons_append] at h
        exact h
      rw [List.cons_append, numSub_cons_match htm]
      congr 1
      rw [List.length_cons, Nat.add_sub_cancel]
      exact congrArg numSub (List.drop_left L' rest)

/-- `strSub` passes a quote-free prefix through verbatim. -/
lemma strSub_nonquote_prefix :
    ∀ {f : List Char}, (∀ c ∈ f, c ≠ '\'') →
      ∀ rest, strSub (f ++ rest) = f ++ strSub rest
  | [], _, _ => by simp
  | c :: f, hf, rest => by
      rw [List.cons_append, strSub_cons_other (hf c (by simp)),
        strSub_nonquote_prefix (fun x hx => hf x (by simp [hx])) rest]
      rfl

/-- The first closing quote after quote-free content. -/
lemma findIdx?_quote {content : List Char} (rest : List Char)
    (h : '\'' ∉ content) :
    ∀ i, List.findIdx? (fun x => x = '\'') (content ++ '\'' :: rest) i =
      some (i + content.length) := by
  induction content with
  | nil =>
      intro i
      rw [List.nil_append, List.findIdx?_cons]
      simp
  | cons c cs ih =>
      intro i
      rw [List.cons_append, List.findIdx?_cons]
      have hc : ¬(decide (c = '\'') = true) := by
        simp only [decide_eq_true_eq]
        intro hcq
        exact h (by simp [hcq])
      rw [if_neg hc, ih (fun hmem => h (by simp [hmem])) (i + 1)]
      simp only [Option.some.injEq, List.length_cons]
      omega

/-- Substituting a quote-delimited block with quote-free content:
exactly the block becomes `?`. -/
lemma strSub_quoted {content rest : List Char} (h : '\'' ∉ content) :
    strSub ('\'' :: (content ++ '\'' :: rest)) = '?' :: strSub rest := by
  have hfind : (content ++ '\'' :: rest).findIdx? (fun x => x = '\'') =
      some content.length := by
    have := findIdx?_quote rest h 0
    simpa using this
  rw [strSub_cons_close hfind]
  congr 1
  have : content ++ '\'' :: rest = (content ++ ['\'']) ++ rest := by
    simp
  rw [this]
  have hlen : content.length + 1 = (content ++ ['\'']).length := by
    simp
  rw [hlen, List.drop_left]

lemma renderT_nil : renderT [] = [] := rfl

lemma renderT_cons (s : Seg) (t : List Seg) :
    renderT (s :: t) = s.render ++ renderT t := by
  simp [renderT]

lemma renderN_nil : renderN [] = [] := rfl

lemma skeleton_nil : skeleton [] = [] := rfl

/-- `headCharT` computes the first rendered character. -/
lemma headCharT_eq : ∀ t : List Seg, (renderT t).head? = headCharT t
  | [] => rfl
  | s :: t => by
      rw [renderT_cons, headCharT]
      cases hr : s.render with
      | nil => rw [List.nil_append]; exact headCharT_eq t
      | cons c cs => rfl

/-- The separation condition makes the text after a slot safe for the
number matcher. -/
lemma safeHead_of_sep {t : List Seg}
    (h : (match headCharT t with
          | none => true
          | some c => inertChar c || c = '\'') = true) :
    ∀ c, (renderT t).head? = some c → isDigitC c = false ∧ c ≠ '.' := by
  intro c hc
  rw [headCharT_eq] at hc
  rw [hc] at h
  dsimp only at h
  rcases Bool.or_eq_true _ _ |>.mp h with hi | hq
  · obtain ⟨h1, _, h3, _⟩ := inertChar_spec hi
    exact ⟨h1, h3⟩
  · have : c = '\'' := by simpa using hq
    subst this
    exact ⟨by decide, by decide⟩

/-- Pass 1: the number substitution on an instantiated template. -/
lemma numSub_render :
    ∀ t : List Seg, (∀ s ∈ t, s.litWfB = true) →
      (∀ s ∈ t, s.fragWfB = true) → numSeparatedB t = true →
      numSub (renderT t) = renderN t := by
  intro t
  induction t with
  | nil => intro _ _ _; rfl
  | cons s t ih =>
      intro hlit hfrag hsep
      have hlit' : ∀ x ∈ t, x.litWfB = true :=
        fun x hx => hlit x (by simp [hx])
      have hfrag' : ∀ x ∈ t, x.fragWfB = true :=
        fun x hx => hfrag x (by simp [hx])
      rw [renderT_cons]
      cases s with
      | frag f =>
          have hsep' : numSeparatedB t = true := by
            simpa [numSeparatedB] using hsep
          have hin : ∀ c ∈ f, inertChar c = true := by
            have := hfrag (Seg.frag f) (by simp)
            simpa [Seg.fragWfB, List.all_eq_true] using this
          rw [Seg.render, numSub_inert_prefix hin, ih hlit' hfrag' hsep']
          simp [renderN]
      | num L =>
          have hsep2 := hsep
          simp only [numSeparatedB, Bool.and_eq_true] at hsep2
          have hsafe := safeHead_of_sep hsep2.1
          have hL : isNumLitL L = true := by
            have := hlit (Seg.num L) (by simp)
            simpa [Seg.litWfB] using this
          rw [Seg.render, numSub_numlit hL hsafe, ih hlit' hfrag' hsep2.2]
          simp [renderN]
      | str s =>
          have hsep' : numSeparatedB t = true := by
            simpa [numSeparatedB] using hsep
          have hnq : '\'' ∉ s := by
            have := hlit (Seg.str s) (by simp)
            simp only [Seg.litWfB, Bool.not_eq_true'] at this
            intro hmem
            rw [List.contains_eq_any_beq] at this
            rw [List.any_eq_false] at this
            exact absurd (by simp : ('\'' == '\'') = true)
              (by simpa using this '\'' hmem)
          have hshape : (Seg.str s).render ++ renderT t =
              '\'' :: (s ++ '\'' :: renderT t) := by
            simp [Seg.render]
          rw [hshape]
          have hquote : tryMatchNum ('\'' :: (s ++ '\'' :: renderT t)) =
              none :=
            tryMatchNum_none_inert (by decide) (by decide) (by decide)
          rw [numSub_cons_nomatch hquote]
          have hsafe : ∀ c, ('\'' :: renderT t).head? = some c →
              isDigitC c = false ∧ c ≠ '.' := by
            intro c hc
            cases hc
            exact ⟨by decide, by decide⟩
          rw [numSub_append s ('\'' :: renderT t) hsafe]
          have hq2 : tryMatchNum ('\'' :: renderT t) = none :=
            tryMatchNum_none_inert (by decide) (by decide) (by decide)
          rw [numSub_cons_nomatch hq2, ih hlit' hfrag' hsep']
          simp [renderN]

/-- Pass 2: the string substitution erases the remaining quoted blocks. -/
lemma strSub_renderN :
    ∀ t : List Seg, (∀ s ∈ t, s.litWfB = true) →
      (∀ s ∈ t, s.fragWfB = true) →
      strSub (renderN t) = skeleton t := by
  intro t
  induction t with
  | nil => intro _ _; rfl
  | cons s t ih =>
      intro hlit hfrag
      have hlit' : ∀ x ∈ t, x.litWfB = true :=
        fun x hx => hlit x (by simp [hx])
      have hfrag' : ∀ x ∈ t, x.fragWfB = true :=
        fun x hx => hfrag x (by simp [hx])
      cases s with
      | frag f =>
          have hin : ∀ c ∈ f, inertChar c = true := by
            have := hfrag (Seg.frag f) (by simp)
            simpa [Seg.fragWfB, List.all_eq_true] using this
          have hnq : ∀ c ∈ f, c ≠ '\'' :=
            fun c hc => (inertChar_spec (hin c hc)).2.2.2
          have : renderN (Seg.frag f :: t) = f ++ renderN t := by
            simp [renderN]
          rw [this, strSub_nonquote_prefix hnq, ih hlit' hfrag']
          simp [skeleton]
      | num L =>
          have : renderN (Seg.num L :: t) = '?' :: renderN t := by
            simp [renderN]
          rw [this, strSub_cons_other (by decide), ih hlit' hfrag']
          simp [skeleton]
      | str s =>
          have hnq : '\'' ∉ s := by
            have := hlit (Seg.str s) (by simp)
            simp only [Seg.litWfB, Bool.not_eq_true'] at this
            intro hmem
            rw [List.contains_eq_any_beq] at this
            rw [List.any_eq_false] at this
            exact absurd (by simp : ('\'' == '\'') = true)
              (by simpa using this '\'' hmem)
          have hnq2 : '\'' ∉ numSub s := by
            intro hmem
            rcases mem_numSub s '\'' hmem with h | h
            · cases h
            · exact hnq h
          have hshape : renderN (Seg.str s :: t) =
              '\'' :: (numSub s ++ '\'' :: renderN t) := by
            simp [renderN]
          rw [hshape, strSub_quoted hnq2, ih hlit' hfrag']
          simp [skeleton]

lemma skeleton_cons (s : Seg) (t : List Seg) :
    skeleton (s :: t) =
      (match s with
       | .frag f => f
       | .num _ => ['?']
       | .str _ => ['?']) ++ skeleton t := by
  simp [skeleton]

/-- Matching templates have the same skeleton. -/
lemma skeleton_eq_of_match :
    ∀ t₁ t₂ : List Seg, segsMatch t₁ t₂ = true → skeleton t₁ = skeleton t₂
  | [], [], _ => rfl
  | [], _ :: _, h => by simp [segsMatch] at h
  | _ :: _, [], h => by simp [segsMatch] at h
  | s₁ :: t₁, s₂ :: t₂, h => by
      simp only [segsMatch, Bool.and_eq_true] at h
      obtain ⟨h1, h2⟩ := h
      have hrest := skeleton_eq_of_match t₁ t₂ h2
      cases s₁ with
      | frag f₁ =>
          cases s₂ with
          | frag f₂ =>
              have : f₁ = f₂ := eq_of_beq (by simpa [SegMatchB] using h1)
              subst this
              rw [skeleton_cons, skeleton_cons, hrest]
          | num _ => simp [SegMatchB] at h1
          | str _ => simp [SegMatchB] at h1
      | num L₁ =>
          cases s₂ with
          | frag _ => simp [SegMatchB] at h1
          | num _ => rw [skeleton_cons, skeleton_cons, hrest]
          | str _ => simp [SegMatchB] at h1
      | str _ =>
          cases s₂ with
          | frag _ => simp [SegMatchB] at h1
          | num _ => simp [SegMatchB] at h1
          | str _ => rw [skeleton_cons, skeleton_cons, hrest]

/-- A well-formed numeric literal contains a digit. -/
lemma isNumLitL_has_digit {s : List Char} (h : isNumLitL s = true) :
    ∃ c ∈ s, isDigitC c = true := by
  have hbody : ∀ u : List Char, isNumBodyL u = true →
      ∃ c ∈ u, isDigitC c = true := by
    intro u hu
    simp only [isNumBodyL] at hu
    cases hdrop : u.drop (digitSpan u) with
    | nil =>
        rw [hdrop] at hu
        dsimp only at hu
        have hn : 0 < digitSpan u := of_decide_eq_true hu
        cases u with
        | nil => simp [digitSpan_nil] at hn
        | cons c cs =>
            cases hc : isDigitC c with
            | true => exact ⟨c, by simp, hc⟩
            | false =>
                rw [digitSpan_cons_nondigit hc] at hn
                exact absurd hn (by simp)
    | cons c u' =>
        rw [hdrop] at hu
        dsimp only at hu
        simp only [Bool.and_eq_true, decide_eq_true_eq, Bool.not_eq_true',
          List.all_eq_true] at hu
        obtain ⟨⟨_, hne⟩, hall⟩ := hu
        cases u' with
        | nil => simp at hne
        | cons d u'' =>
            refine ⟨d, ?_, hall d (by simp)⟩
            have hmem : d ∈ u.drop (digitSpan u) := by rw [hdrop]; simp
            exact List.drop_subset _ _ hmem
  cases s with
  | nil => simp [isNumLitL] at h
  | cons c s' =>
      simp only [isNumLitL] at h
      by_cases hs : isSignC c
      · rw [if_pos hs] at h
        obtain ⟨d, hd, hdig⟩ := hbody s' h
        exact ⟨d, by simp [hd], hdig⟩
      · rw [if_neg hs] at h
        exact hbody (c :: s') h

/-- A segment's characters appear in the template's text. -/
lemma mem_renderT {c : Char} {s : Seg} {t : List Seg}
    (hs : s ∈ t) (hc : c ∈ s.render) : c ∈ renderT t := by
  unfold renderT
  rw [List.mem_flatten]
  exact ⟨s.render, List.mem_map_of_mem _ hs, hc⟩

/-- Templates made of fragments only render equally when they match. -/
lemma render_eq_of_match_frag :
    ∀ t₁ t₂ : List Seg, segsMatch t₁ t₂ = true →
      (∀ s ∈ t₁, ∃ f, s = Seg.frag f) → renderT t₁ = renderT t₂
  | [], [], _, _ => rfl
  | [], _ :: _, h, _ => by simp [segsMatch] at h
  | _ :: _, [], h, _ => by simp [segsMatch] at h
  | s₁ :: t₁, s₂ :: t₂, h, hf => by
      simp only [segsMatch, Bool.and_eq_true] at h
      obtain ⟨h1, h2⟩ := h
      obtain ⟨f, rfl⟩ := hf s₁ (by simp)
      cases s₂ with
      | frag f₂ =>
          have : f = f₂ := eq_of_beq (by simpa [SegMatchB] using h1)
          subst this
          rw [renderT_cons, renderT_cons,
            render_eq_of_match_frag t₁ t₂ h2
              (fun s hs => hf s (by simp [hs]))]
      | num _ => simp [SegMatchB] at h1
      | str _ => simp [SegMatchB] at h1

/-- **C4, counterexample.**  The claimed equivalence fails in both
directions.  (i) `a"` and `b"` normalize identically (the trailing-quote
trim erases both), yet they do not differ only in literal content — they
contain no literals and differ in a plain character.  (ii) `1.2` and
`1.5.2` do differ only in numeric-literal content (template `<num> ".2"`
with literals `1` and `1.5`), yet they normalize to `?` and `??`. -/
theorem C4_counterexample :
    (cleanUpQuery "a\"" = cleanUpQuery "b\"" ∧
      ¬LitEquiv "a\"".toList "b\"".toList) ∧
    (LitEquiv "1.2".toList "1.5.2".toList ∧
      cleanUpQuery "1.2" ≠ cleanUpQuery "1.5.2") := by
  refine ⟨⟨by decide, ?_⟩, ⟨?_, by decide⟩⟩
  · rintro ⟨t₁, t₂, hm, hw₁, _, hr₁, hr₂⟩
    rw [List.all_eq_true] at hw₁
    have hfrag : ∀ s ∈ t₁, ∃ f, s = Seg.frag f := by
      intro s hs
      cases s with
      | frag f => exact ⟨f, rfl⟩
      | num L =>
          obtain ⟨c, hcL, hdig⟩ :=
            isNumLitL_has_digit (by simpa [Seg.litWfB] using hw₁ _ hs)
          have hmem : c ∈ renderT t₁ :=
            mem_renderT hs (by simpa [Seg.render])
          rw [hr₁] at hmem
          have hnod : ∀ x ∈ "a\"".toList, isDigitC x = false := by decide
          exact absurd hdig (by simp [hnod c hmem])
      | str L =>
          have hmem : '\'' ∈ renderT t₁ :=
            mem_renderT hs (by simp [Seg.render])
          rw [hr₁] at hmem
          have hq : '\'' ∉ "a\"".toList := by decide
          exact absurd hmem hq
    have heq := render_eq_of_match_frag t₁ t₂ hm hfrag
    rw [hr₁, hr₂] at heq
    exact absurd heq (by decide)
  · exact ⟨[Seg.num ['1'], Seg.frag ['.', '2']],
      [Seg.num ['1', '.', '5'], Seg.frag ['.', '2']],
      by decide, by decide, by decide, by decide, by decide⟩

/-- **C4 (amended).**  Normalization depends only on the literal-erased
template: two instantiations of one template shape — identical inert
fragments (no digits, signs, dots, or quotes), numeric-literal and
quote-free string-literal slots aligned, every numeric slot followed by
text the number matcher cannot absorb — are literal-equivalent and
normalize to exactly the same result.  (The converse, and instantiations
with non-inert shared text, fail: see the counterexample.) -/
theorem C4_literal_abstraction (t₁ t₂ : List Seg)
    (hm : segsMatch t₁ t₂ = true)
    (hw₁ : t₁.all Seg.litWfB = true) (hw₂ : t₂.all Seg.litWfB = true)
    (hf₁ : t₁.all Seg.fragWfB = true) (hf₂ : t₂.all Seg.fragWfB = true)
    (hs₁ : numSeparatedB t₁ = true) (hs₂ : numSeparatedB t₂ = true) :
    LitEquiv (renderT t₁) (renderT t₂) ∧
    cleanUpQueryL (renderT t₁) = cleanUpQueryL (renderT t₂) := by
  rw [List.all_eq_true] at hw₁ hw₂ hf₁ hf₂
  refine ⟨⟨t₁, t₂, hm, by rw [List.all_eq_true]; exact hw₁,
    by rw [List.all_eq_true]; exact hw₂, rfl, rfl⟩, ?_⟩
  unfold cleanUpQueryL
  rw [numSub_render t₁ hw₁ hf₁ hs₁, strSub_renderN t₁ hw₁ hf₁,
    numSub_render t₂ hw₂ hf₂ hs₂, strSub_renderN t₂ hw₂ hf₂,
    skeleton_eq_of_match t₁ t₂ hm]

/-- Witness for C4 (amended) on two concrete instantiations of
`select id = <num> or name = '<str>';`. -/
theorem C4_witness :
    LitEquiv
      (renderT [Seg.frag "select id = ".toList, Seg.num ['5'],
        Seg.frag " or name = ".toList, Seg.str ['x'], Seg.frag [';']])
      (renderT [Seg.frag "select id = ".toList,
        Seg.num ['1', '.', '2', '5'],
        Seg.frag " or name = ".toList, Seg.str ['y', '9', 'z'],
        Seg.frag [';']]) ∧
    cleanUpQueryL
      (renderT [Seg.frag "select id = ".toList, Seg.num ['5'],
        Seg.frag " or name = ".toList, Seg.str ['x'], Seg.frag [';']]) =
    cleanUpQueryL
      (renderT [Seg.frag "select id = ".toList,
        Seg.num ['1', '.', '2', '5'],
        Seg.frag " or name = ".toList, Seg.str ['y', '9', 'z'],
        Seg.frag [';']]) :=
  C4_literal_abstraction
    [Seg.frag "select id = ".toList, Seg.num ['5'],
      Seg.frag " or name = ".toList, Seg.str ['x'], Seg.frag [';']]
    [Seg.frag "select id = ".toList, Seg.num ['1', '.', '2', '5'],
      Seg.frag " or name = ".toList, Seg.str ['y', '9', 'z'],
      Seg.frag [';']]
    (by decide) (by decide) (by decide) (by decide) (by decide)
    (by decide) (by decide)

end SlowLog
